import Mathlib

/-!
Verification of the artist-database certificate/box subsystem.

This file shallowly embeds the pure core of the repository:
  * `artistdb/services/certificates.py`
      `_safe_text`, `artwork_image_data_uri`, `strip_empty_image_tags`,
      `merge_unlayer_html` (placeholder resolution and substitution)
  * `artistdb/services/box.py` and `artistdb/routes/box.py`
      `make_box_token`, `verify_box_token`, the box page POST handler
  * `artistdb/routes/certificates.py`
      `api_certificate_template_save`

Strings are modelled as `List Char` internally with `String` wrappers.
Python regular-expression substitution (`re.sub`) for the placeholder
patterns `open \s* key \s* close` is modelled by an explicit left-to-right
non-overlapping scanner; since the key and the closing delimiter of every
pattern start with a non-whitespace character, the greedy `\s*` of the
Python engine is equivalent to maximal-munch whitespace skipping, so the
scanner below is an exact model of the engine on these patterns.
`re.sub` interprets backslash escapes inside the replacement string; the
embedding models the backslash-free replacement case (all theorems that
quantify over replacement values either use concrete backslash-free values
or carry no replacement at all).

Library calls (`markupsafe.escape`, `base64.b64encode`, the `itsdangerous`
timed serializer) are embedded by their documented input/output behaviour.
-/

namespace ArtistDb

set_option maxRecDepth 200000

/-- Python `\s` on the ASCII range: the whitespace characters recognised by
the `\s*` parts of the placeholder patterns. -/
def isPySpace (c : Char) : Bool :=
  c = ' ' || c = '\t' || c = '\n' || c = '\x0d' || c = '\x0b' || c = '\x0c'

/-- Python `\w` on the ASCII range (used for the `\b` boundaries of the
image-tag pattern and to describe placeholder key names). -/
def isWordChar (c : Char) : Bool :=
  c.isAlphanum || c = '_'

/-- Consume the literal `p` from the front of `t`; `some` of the remainder
on success. -/
def takeLit : List Char → List Char → Option (List Char)
  | [], t => some t
  | _ :: _, [] => none
  | p :: ps, c :: cs => if p = c then takeLit ps cs else none

/-- Consume the maximal whitespace run from the front (greedy `\s*`). -/
def skipWs : List Char → List Char
  | [] => []
  | c :: cs => if isPySpace c then skipWs cs else c :: cs

/-- Match the placeholder pattern `o \s* k \s* c` at the head of `t`,
returning the remainder after the match. -/
def matchPh (o k c : List Char) (t : List Char) : Option (List Char) :=
  match takeLit o t with
  | none => none
  | some r1 =>
    match takeLit k (skipWs r1) with
    | none => none
    | some r2 => takeLit c (skipWs r2)

theorem takeLit_length_le : ∀ (p t r : List Char), takeLit p t = some r → r.length ≤ t.length
  | [], _, _, h => by simp [takeLit] at h; simp [h]
  | _ :: _, [], _, h => by simp [takeLit] at h
  | p :: ps, c :: cs, r, h => by
    simp only [takeLit] at h
    split at h
    · exact Nat.le_succ_of_le (takeLit_length_le ps cs r h)
    · exact absurd h (by simp)

theorem takeLit_length_lt : ∀ (p : Char) (ps t r : List Char),
    takeLit (p :: ps) t = some r → r.length < t.length
  | _, _, [], _, h => by simp [takeLit] at h
  | p, ps, c :: cs, r, h => by
    simp only [takeLit] at h
    split at h
    · exact Nat.lt_succ_of_le (takeLit_length_le ps cs r h)
    · exact absurd h (by simp)

theorem skipWs_length_le : ∀ (t : List Char), (skipWs t).length ≤ t.length
  | [] => Nat.le_refl _
  | c :: cs => by
    simp only [skipWs]
    split
    · exact Nat.le_succ_of_le (skipWs_length_le cs)
    · exact Nat.le_refl _

theorem matchPh_length_lt (o : Char) (os k c t r : List Char)
    (h : matchPh (o :: os) k c t = some r) : r.length < t.length := by
  simp only [matchPh] at h
  split at h
  · exact absurd h (by simp)
  · rename_i r1 h1
    split at h
    · exact absurd h (by simp)
    · rename_i r2 h2
      have l1 : r1.length < t.length := takeLit_length_lt o os t r1 h1
      have l2 : r2.length ≤ r1.length :=
        Nat.le_trans (takeLit_length_le k (skipWs r1) r2 h2) (skipWs_length_le r1)
      have l3 : r.length ≤ r2.length :=
        Nat.le_trans (takeLit_length_le c (skipWs r2) r h) (skipWs_length_le r2)
      omega

/-- Fuel-driven worker for `reSub`; with fuel at least the length of the
text it performs the full left-to-right non-overlapping scan. -/
def reSubF (o : Char) (os k c v : List Char) : Nat → List Char → List Char
  | _, [] => []
  | 0, t => t
  | f + 1, x :: xs =>
    match matchPh (o :: os) k c (x :: xs) with
    | some r => v ++ reSubF o os k c v f r
    | none => x :: reSubF o os k c v f xs

/-- `re.sub` for a placeholder pattern with non-empty opening delimiter:
left-to-right non-overlapping scan, each match replaced by `v`, the
replacement never rescanned. -/
def reSub (o : Char) (os k c v t : List Char) : List Char :=
  reSubF o os k c v t.length t

theorem matchPh_nil_none (o : Char) (os k c : List Char) :
    matchPh (o :: os) k c [] = none := by
  simp [matchPh, takeLit]

theorem reSubF_fuel (o : Char) (os k c v : List Char) :
    ∀ (n f1 f2 : Nat) (t : List Char), t.length ≤ n → t.length ≤ f1 → t.length ≤ f2 →
      reSubF o os k c v f1 t = reSubF o os k c v f2 t := by
  intro n
  induction n with
  | zero =>
    intro f1 f2 t ht _ _
    have : t = [] := List.length_eq_zero.mp (Nat.le_zero.mp ht)
    subst this
    cases f1 <;> cases f2 <;> rfl
  | succ n ih =>
    intro f1 f2 t ht h1 h2
    match t with
    | [] => cases f1 <;> cases f2 <;> rfl
    | x :: xs =>
      match f1, f2 with
      | 0, _ => simp at h1
      | _ + 1, 0 => simp at h2
      | f1 + 1, f2 + 1 =>
        cases hm : matchPh (o :: os) k c (x :: xs) with
        | some r =>
          have hr : r.length < xs.length + 1 := matchPh_length_lt o os k c (x :: xs) r hm
          simp only [List.length_cons] at ht h1 h2
          simp only [reSubF, hm]
          rw [ih f1 r.length r (by omega) (by omega) (by omega),
            ih f2 r.length r (by omega) (by omega) (by omega)]
        | none =>
          simp only [List.length_cons] at ht h1 h2
          simp only [reSubF, hm]
          rw [ih f1 f2 xs (by omega) (by omega) (by omega)]

theorem reSub_nil (o : Char) (os k c v : List Char) : reSub o os k c v [] = [] := rfl

theorem reSub_cons_match (o : Char) (os k c v : List Char) (x : Char) (xs r : List Char)
    (h : matchPh (o :: os) k c (x :: xs) = some r) :
    reSub o os k c v (x :: xs) = v ++ reSub o os k c v r := by
  have hr : r.length < xs.length + 1 := matchPh_length_lt o os k c (x :: xs) r h
  unfold reSub
  simp only [List.length_cons, reSubF, h]
  rw [reSubF_fuel o os k c v r.length xs.length r.length r (Nat.le_refl _) (by omega)
    (Nat.le_refl _)]

theorem reSub_cons_nomatch (o : Char) (os k c v : List Char) (x : Char) (xs : List Char)
    (h : matchPh (o :: os) k c (x :: xs) = none) :
    reSub o os k c v (x :: xs) = x :: reSub o os k c v xs := by
  unfold reSub
  simp only [List.length_cons, reSubF, h]

/-- `markupsafe.escape` on plain text: each markup-significant character is
replaced by its entity; all other characters pass through. -/
def escChar (c : Char) : List Char :=
  if c = '&' then ['&', 'a', 'm', 'p', ';']
  else if c = '<' then ['&', 'l', 't', ';']
  else if c = '>' then ['&', 'g', 't', ';']
  else if c = '\'' then ['&', '#', '3', '9', ';']
  else if c = '"' then ['&', '#', '3', '4', ';']
  else [c]

/-- `markupsafe.escape` over a whole string. -/
def htmlEscape (s : List Char) : List Char :=
  s.flatMap escChar

/-- Python `str.strip()` (restricted to the ASCII whitespace range). -/
def pyStrip (s : List Char) : List Char :=
  ((s.dropWhile isPySpace).reverse.dropWhile isPySpace).reverse

/-- Values that reach `_safe_text` in the source: `None`, strings
(column values, the artist name, the formatted date) and integers
(`artwork.id`). `str()` is total on all of them. -/
inductive PyVal where
  | none : PyVal
  | str : String → PyVal
  | int : Int → PyVal
deriving DecidableEq

/-- Python `str()` on the values above. -/
def pyStr : PyVal → String
  | .none => "None"
  | .str s => s
  | .int n => toString n

/-- `_safe_text` from `artistdb/services/certificates.py`: `None` becomes an
em dash, otherwise the value is converted to text, stripped, and either the
em dash (if the stripped text is empty) or its HTML-escaped form is
returned. -/
def safe_text (v : PyVal) : List Char :=
  match v with
  | .none => ['—']
  | v =>
    let s := pyStrip (pyStr v).data
    if s = [] then ['—'] else htmlEscape s

/-- String-level wrapper of `safe_text`. -/
def safe_textS (v : PyVal) : String :=
  String.mk (safe_text v)

/-- Case-insensitive character comparison (`re.IGNORECASE`). -/
def lcEq (a b : Char) : Bool :=
  a.toLower = b.toLower

/-- Consume a literal case-insensitively. -/
def takeLitCI : List Char → List Char → Option (List Char)
  | [], t => some t
  | _ :: _, [] => none
  | p :: ps, c :: cs => if lcEq p c then takeLitCI ps cs else none

/-- `[^>]*>` : skip to the first `'>'` and consume it. -/
def afterGt : List Char → Option (List Char)
  | [] => none
  | c :: cs => if c = '>' then some cs else afterGt cs

/-- `(['"])\s*\1[^>]*>` : a quote, optional whitespace, the same quote
again, then the rest of the tag up to `'>'`. -/
def quoteTail : List Char → Option (List Char)
  | [] => none
  | q :: rest =>
    if q = '\'' || q = '"' then
      match skipWs rest with
      | [] => none
      | q2 :: r2 => if q2 = q then afterGt r2 else none
    else none

/-- `\bsrc=(['"])\s*\1[^>]*>` at the head of `t`, where `prev` is the
character immediately before `t` (for the word boundary). -/
def srcTail (prev : Char) (t : List Char) : Option (List Char) :=
  if isWordChar prev then none
  else
    match takeLitCI ['s', 'r', 'c', '='] t with
    | some r => quoteTail r
    | none => none

/-- Greedy `[^>]*` followed by `srcTail`: the longest gap is tried first,
exactly as the backtracking engine does. -/
def gapSearch (prev : Char) : List Char → Option (List Char)
  | [] => srcTail prev []
  | c :: rest =>
    if c = '>' then srcTail prev (c :: rest)
    else
      match gapSearch c rest with
      | some r => some r
      | none => srcTail prev (c :: rest)

/-- Match `<img\b[^>]*\bsrc=(['"])\s*\1[^>]*>` (IGNORECASE, DOTALL) at the
head of `t`, returning the remainder after the matched tag. -/
def matchImgTag (t : List Char) : Option (List Char) :=
  match takeLitCI ['<', 'i', 'm', 'g'] t with
  | some r =>
    match r with
    | [] => none
    | c :: _ => if isWordChar c then none else gapSearch 'g' r
  | none => none

theorem takeLitCI_length_le : ∀ (p t r : List Char), takeLitCI p t = some r → r.length ≤ t.length
  | [], _, _, h => by simp [takeLitCI] at h; simp [h]
  | _ :: _, [], _, h => by simp [takeLitCI] at h
  | p :: ps, c :: cs, r, h => by
    simp only [takeLitCI] at h
    split at h
    · exact Nat.le_succ_of_le (takeLitCI_length_le ps cs r h)
    · exact absurd h (by simp)

theorem afterGt_length_lt : ∀ (t r : List Char), afterGt t = some r → r.length < t.length
  | [], _, h => by simp [afterGt] at h
  | c :: cs, r, h => by
    simp only [afterGt] at h
    split at h
    · have hcs : cs = r := by simpa using h
      subst hcs
      simp only [List.length_cons]
      omega
    · exact Nat.lt_succ_of_lt (afterGt_length_lt cs r h)

theorem quoteTail_length_le : ∀ (t r : List Char), quoteTail t = some r → r.length ≤ t.length
  | [], _, h => by simp [quoteTail] at h
  | q :: rest, r, h => by
    simp only [quoteTail] at h
    split at h
    · split at h
      · exact absurd h (by simp)
      · rename_i r2 hsk
        split at h
        · have h1 : r.length < r2.length := afterGt_length_lt r2 r h
          have h2 : (skipWs rest).length ≤ rest.length := skipWs_length_le rest
          rw [hsk] at h2
          simp only [List.length_cons] at h2 ⊢
          omega
        · exact absurd h (by simp)
    · exact absurd h (by simp)

theorem srcTail_length_le (prev : Char) (t r : List Char)
    (h : srcTail prev t = some r) : r.length ≤ t.length := by
  unfold srcTail at h
  split at h
  · exact absurd h (by simp)
  · cases h1 : takeLitCI ['s', 'r', 'c', '='] t with
    | none => rw [h1] at h; exact absurd h (by simp)
    | some r1 =>
      rw [h1] at h
      exact Nat.le_trans (quoteTail_length_le r1 r h) (takeLitCI_length_le _ t r1 h1)

theorem gapSearch_length_le : ∀ (prev : Char) (t r : List Char),
    gapSearch prev t = some r → r.length ≤ t.length
  | prev, [], r, h => by
    simp only [gapSearch] at h
    exact srcTail_length_le prev [] r h
  | prev, c :: rest, r, h => by
    simp only [gapSearch] at h
    split at h
    · exact srcTail_length_le prev (c :: rest) r h
    · split at h
      · rename_i r1 h1
        have hr : r1 = r := by simpa using h
        subst hr
        exact Nat.le_succ_of_le (gapSearch_length_le c rest _ h1)
      · exact srcTail_length_le prev (c :: rest) r h

theorem takeLitCI_length_eq : ∀ (p t r : List Char),
    takeLitCI p t = some r → t.length = p.length + r.length
  | [], t, r, h => by
    have : t = r := by simpa [takeLitCI] using h
    simp [this]
  | _ :: _, [], _, h => by simp [takeLitCI] at h
  | p :: ps, c :: cs, r, h => by
    simp only [takeLitCI] at h
    split at h
    · have := takeLitCI_length_eq ps cs r h
      simp only [List.length_cons]
      omega
    · exact absurd h (by simp)

theorem matchImgTag_length_lt (t r : List Char)
    (h : matchImgTag t = some r) : r.length < t.length := by
  unfold matchImgTag at h
  cases h1 : takeLitCI ['<', 'i', 'm', 'g'] t with
  | none => rw [h1] at h; exact absurd h (by simp)
  | some r1 =>
    rw [h1] at h
    have h4 : t.length = 4 + r1.length := by
      simpa using takeLitCI_length_eq _ t r1 h1
    match r1 with
    | [] => exact absurd h (by simp)
    | c :: cs =>
      simp only at h
      split at h
      · exact absurd h (by simp)
      · have := gapSearch_length_le 'g' (c :: cs) r h
        omega

/-- Fuel-driven worker of the empty-image stripping scan. -/
def stripAuxF : Nat → List Char → List Char
  | _, [] => []
  | 0, t => t
  | f + 1, x :: xs =>
    match matchImgTag (x :: xs) with
    | some r => stripAuxF f r
    | none => x :: stripAuxF f xs

/-- One left-to-right non-overlapping pass removing every matched empty-src
`<img>` tag. -/
def stripAux (t : List Char) : List Char :=
  stripAuxF t.length t

theorem stripAuxF_fuel :
    ∀ (n f1 f2 : Nat) (t : List Char), t.length ≤ n → t.length ≤ f1 → t.length ≤ f2 →
      stripAuxF f1 t = stripAuxF f2 t := by
  intro n
  induction n with
  | zero =>
    intro f1 f2 t ht _ _
    have : t = [] := List.length_eq_zero.mp (Nat.le_zero.mp ht)
    subst this
    cases f1 <;> cases f2 <;> rfl
  | succ n ih =>
    intro f1 f2 t ht h1 h2
    match t with
    | [] => cases f1 <;> cases f2 <;> rfl
    | x :: xs =>
      match f1, f2 with
      | 0, _ => simp at h1
      | _ + 1, 0 => simp at h2
      | f1 + 1, f2 + 1 =>
        cases hm : matchImgTag (x :: xs) with
        | some r =>
          have hr : r.length < xs.length + 1 := matchImgTag_length_lt (x :: xs) r hm
          simp only [List.length_cons] at ht h1 h2
          simp only [stripAuxF, hm]
          rw [ih f1 r.length r (by omega) (by omega) (by omega),
            ih f2 r.length r (by omega) (by omega) (by omega)]
        | none =>
          simp only [List.length_cons] at ht h1 h2
          simp only [stripAuxF, hm]
          rw [ih f1 f2 xs (by omega) (by omega) (by omega)]

theorem stripAux_nil : stripAux [] = [] := rfl

theorem stripAux_cons_match (x : Char) (xs r : List Char)
    (h : matchImgTag (x :: xs) = some r) :
    stripAux (x :: xs) = stripAux r := by
  have hr : r.length < xs.length + 1 := matchImgTag_length_lt (x :: xs) r h
  unfold stripAux
  simp only [List.length_cons, stripAuxF, h]
  exact stripAuxF_fuel r.length xs.length r.length r (Nat.le_refl _) (by omega) (Nat.le_refl _)

theorem stripAux_cons_nomatch (x : Char) (xs : List Char)
    (h : matchImgTag (x :: xs) = none) :
    stripAux (x :: xs) = x :: stripAux xs := by
  unfold stripAux
  simp only [List.length_cons, stripAuxF, h]

/-- `strip_empty_image_tags` from `artistdb/services/certificates.py`.
The source short-circuits on a falsy (empty) string, which the scan also
maps to itself. -/
def strip_empty_image_tags (html : List Char) : List Char :=
  if html = [] then html else stripAux html

/-- String-level wrapper of `strip_empty_image_tags`. -/
def strip_empty_image_tagsS (html : String) : String :=
  String.mk (strip_empty_image_tags html.data)

/-- The fields of the `Artwork` model used by the certificate pipeline
(`artistdb/models.py`): all descriptive columns are nullable strings,
`id` is an integer primary key. -/
structure Artwork where
  id : Int
  title : Option String
  year : Option String
  medium : Option String
  dimensions : Option String
  edition_info : Option String
  image_filename : Option String

/-- The filesystem as seen by `artwork_image_data_uri`: `isfile` models
`os.path.isfile`, and `read` models opening and reading a path, `none`
standing for an I/O failure of the read. -/
structure FS where
  isfile : String → Bool
  read : String → Option (List Nat)

/-- Python exceptions that can escape `artwork_image_data_uri`:
`IndexError` from `rsplit(".", 1)[1]` on a dotless filename, and `OSError`
from `open`/`read`. -/
inductive PyErr where
  | indexError : PyErr
  | ioError : PyErr
deriving DecidableEq

deriving instance DecidableEq for Except

/-- `os.path.join(upload_folder, image_filename)` for a relative name. -/
def joinPath (folder name : String) : String :=
  folder ++ "/" ++ name

/-- The base64 alphabet used by `base64.b64encode`. -/
def b64Alphabet : List Char :=
  "ABCDEFGHIJKLMNOPQRSTUVWXYZabcdefghijklmnopqrstuvwxyz0123456789+/".data

/-- Digit of the base64 alphabet. -/
def b64Char (n : Nat) : Char :=
  b64Alphabet.getD n 'A'

/-- `base64.b64encode` on a byte list (each entry `< 256`), including
`'='` padding. -/
def base64Encode : List Nat → List Char
  | a :: b :: c :: rest =>
    b64Char (a / 4) :: b64Char (a % 4 * 16 + b / 16) ::
      b64Char (b % 16 * 4 + c / 64) :: b64Char (c % 64) :: base64Encode rest
  | [a, b] => [b64Char (a / 4), b64Char (a % 4 * 16 + b / 16), b64Char (b % 16 * 4), '=']
  | [a] => [b64Char (a / 4), b64Char (a % 4 * 16), '=', '=']
  | [] => []

/-- `image_filename.rsplit(".", 1)[1]`: the text after the last dot, or
`none` (an `IndexError` in the source) when the name has no dot. -/
def extAfterLastDot (fn : List Char) : Option (List Char) :=
  if fn.contains '.' then some ((fn.reverse.takeWhile (fun c => c ≠ '.')).reverse) else none

/-- `artwork_image_data_uri` from `artistdb/services/certificates.py`.
An unset or empty filename and a path that fails the `isfile` check give
`""`; a dotless filename raises `IndexError`; a read failure after the
`isfile` check propagates (`ioError`); otherwise the data URI is built
with the MIME type chosen from the lowercased extension. -/
def artwork_image_data_uri (a : Artwork) (upload_folder : String) (fs : FS) :
    Except PyErr String :=
  match a.image_filename with
  | Option.none => .ok ""
  | some fn =>
    if fn = "" then .ok ""
    else
      let path := joinPath upload_folder fn
      if fs.isfile path then
        match extAfterLastDot fn.data with
        | Option.none => .error .indexError
        | some ext =>
          let extL := ext.map Char.toLower
          let mime := if extL = "jpg".data || extL = "jpeg".data then "image/jpeg" else "image/png"
          match fs.read path with
          | Option.none => .error .ioError
          | some bytes => .ok ("data:" ++ mime ++ ";base64," ++ String.mk (base64Encode bytes))
      else .ok ""

/-- The fixed static signature-line markup fragment from the resolver. -/
def signature_line_html : String :=
  "<span style=\"display:inline-block;border-bottom:1px solid #111;min-width:260px;height:1.2em;vertical-align:baseline;\"></span>"

/-- Lift a nullable column value to the formatter's input. -/
def optVal : Option String → PyVal
  | Option.none => PyVal.none
  | some s => PyVal.str s

/-- The resolved placeholder mapping of `merge_unlayer_html`, in the
source's insertion order. `today` stands for
`datetime.utcnow().strftime("%Y-%m-%d")` and `img_uri` for the image
inliner's output. -/
def resolveValues (a : Artwork) (artist_name : String) (img_uri : String) (today : String) :
    List (String × String) :=
  [("artist_name", safe_textS (.str artist_name)),
   ("artwork_title", safe_textS (optVal a.title)),
   ("year", safe_textS (optVal a.year)),
   ("medium", safe_textS (optVal a.medium)),
   ("dimensions", safe_textS (optVal a.dimensions)),
   ("edition_info", safe_textS (.str
     (match a.edition_info with
      | Option.none => "Unique"
      | some "" => "Unique"
      | some s => s))),
   ("artwork_id", safe_textS (.int a.id)),
   ("certificate_date", safe_textS (.str today)),
   ("artwork_image_url", String.mk (htmlEscape img_uri.data)),
   ("signature_line", signature_line_html)]

/-- The recognized placeholder key names, in processing order. -/
def keyNames : List String :=
  ["artist_name", "artwork_title", "year", "medium", "dimensions",
   "edition_info", "artwork_id", "certificate_date", "artwork_image_url", "signature_line"]

/-- The six delimiter pairs of the placeholder patterns, in the order the
source compiles them (`\x7b\x7b` and `\x7d\x7d` are the literal braces). -/
def delims : List (String × String) :=
  [("%%", "%%"), ("[[", "]]"), ("\x7b\x7b", "\x7d\x7d"),
   ("&#91;&#91;", "&#93;&#93;"), ("&#123;&#123;", "&#125;&#125;"),
   ("&lbrack;&lbrack;", "&rbrack;&rbrack;")]

/-- `pat.sub(v, t)` for the pattern `o \s* k \s* c` on strings. Every
opening delimiter of `delims` is non-empty; an empty `o` is mapped to the
identity. -/
def reSubS (o k c v t : String) : String :=
  match o.data with
  | [] => t
  | oh :: ot => String.mk (reSub oh ot k.data c.data v.data t.data)

/-- The inner pattern loop of `merge_unlayer_html`: substitute one key's
value through all six patterns, in order. -/
def subAllPats (k v t : String) : String :=
  delims.foldl (fun acc oc => reSubS oc.1 k oc.2 v acc) t

/-- The outer key loop of `merge_unlayer_html`: process every resolved
key in insertion order. -/
def mergeFold (values : List (String × String)) (t : String) : String :=
  values.foldl (fun acc kv => subAllPats kv.1 kv.2 acc) t

/-- The pure tail of `merge_unlayer_html` after the image URI is known:
substitution through all keys and patterns, then the empty-image
stripping pass when no image was available. -/
def mergeResolved (template : String) (values : List (String × String)) (img_uri : String) :
    String :=
  let out := mergeFold values template
  if img_uri = "" then strip_empty_image_tagsS out else out

/-- `merge_unlayer_html` from `artistdb/services/certificates.py`. An
exception escaping the image inliner propagates out of the merge. -/
def merge_unlayer_html (template : String) (a : Artwork) (artist_name upload_folder : String)
    (fs : FS) (today : String) : Except PyErr String :=
  match artwork_image_data_uri a upload_folder fs with
  | .error e => .error e
  | .ok img_uri => .ok (mergeResolved template (resolveValues a artist_name img_uri today) img_uri)

/-- Default maximum token age of `verify_box_token`: five years in
seconds. -/
def box_max_age_default : Nat :=
  60 * 60 * 24 * 365 * 5

/-- Abstract model of the `itsdangerous` URL-safe timed signature (salt
`"box-token"`): a deterministic function of the secret key, the signed
payload and the signing timestamp. Forgery resistance is not modelled and
no claim depends on it. -/
def macSign (secret : String) (artwork_id : Int) (ts : Nat) : Nat :=
  (secret.data.foldl (fun h c => h * 131 + c.toNat + 1) 5381) * 2 ^ 64 +
    artwork_id.natAbs * 2 ^ 33 + (if artwork_id < 0 then 2 ^ 32 else 0) + ts

/-- A serialized box token: the payload dict `\x7b"artwork_id": n\x7d`,
the timestamp appended by the timed serializer, and the signature. -/
structure SignedToken where
  artwork_id : Int
  ts : Nat
  sig : Nat
deriving DecidableEq

/-- `make_box_token` from `artistdb/services/box.py`, with the signing
time explicit. -/
def make_box_token (secret : String) (artwork_id : Int) (ts : Nat) : SignedToken :=
  ⟨artwork_id, ts, macSign secret artwork_id ts⟩

/-- The failure signals of `itsdangerous` loading: `BadSignature` for a
signature mismatch, `SignatureExpired` for a stale timestamp. -/
inductive TokenErr where
  | badSignature : TokenErr
  | signatureExpired : TokenErr
deriving DecidableEq

/-- `verify_box_token` from `artistdb/services/box.py`: the serializer
checks the signature first, then the age against `max_age_seconds`, and
returns the decoded payload. -/
def verify_box_token (secret : String) (tok : SignedToken) (now : Nat) (max_age_seconds : Nat) :
    Except TokenErr Int :=
  if tok.sig ≠ macSign secret tok.artwork_id tok.ts then .error .badSignature
  else if now - tok.ts > max_age_seconds then .error .signatureExpired
  else .ok tok.artwork_id

/-- The `can_update` computation of `box_page` in `artistdb/routes/box.py`:
no token means no capability; a token that verifies grants the capability
exactly when the decoded artwork id equals the id in the request path; a
verification error leaves the capability denied. -/
def boxCanUpdate (secret : String) (tok : Option SignedToken) (path_id : Int) (now : Nat) :
    Bool :=
  match tok with
  | Option.none => false
  | some t =>
    match verify_box_token secret t now box_max_age_default with
    | .ok dataId => dataId == path_id
    | .error _ => false

/-- A `LocationLog` row as appended by the box page. -/
structure LocationLog where
  artwork_id : Int
  location : String
  note : String
deriving DecidableEq

/-- String-level wrapper of `pyStrip`. -/
def pyStripS (s : String) : String :=
  String.mk (pyStrip s.data)

/-- The POST branch of `box_page`: after `get_or_404` on the artwork id,
a write happens only when `can_update` holds and the stripped location is
non-empty, in which case one row is appended; `location`/`note` model
`request.form.get(...) or ""`. Returns the new log table. -/
def box_page_post (artworks : List Int) (db : List LocationLog) (secret : String)
    (path_id : Int) (tok : Option SignedToken) (now : Nat) (location note : String) :
    List LocationLog :=
  if artworks.contains path_id then
    if boxCanUpdate secret tok path_id now then
      let loc := pyStripS location
      if loc = "" then db
      else db ++ [⟨path_id, loc, pyStripS note⟩]
    else db
  else db

/-- JSON values of a parsed request payload. -/
inductive JVal where
  | null : JVal
  | bool : Bool → JVal
  | num : Int → JVal
  | str : String → JVal
  | arr : List JVal → JVal
  | obj : List (String × JVal) → JVal

/-- Hex digit for JSON string escapes. -/
def hexDigit (n : Nat) : Char :=
  "0123456789abcdef".data.getD n '0'

/-- Four lowercase hex digits. -/
def hex4 (n : Nat) : List Char :=
  [hexDigit (n / 4096 % 16), hexDigit (n / 256 % 16), hexDigit (n / 16 % 16), hexDigit (n % 16)]

/-- `json.dumps` escaping of one character (default `ensure_ascii`). -/
def jEscChar (c : Char) : List Char :=
  if c = '"' then ['\\', '"']
  else if c = '\\' then ['\\', '\\']
  else if c = '\n' then ['\\', 'n']
  else if c = '\t' then ['\\', 't']
  else if c = '\x0d' then ['\\', 'r']
  else if c = '\x08' then ['\\', 'b']
  else if c = '\x0c' then ['\\', 'f']
  else if c.toNat < 32 then '\\' :: 'u' :: hex4 c.toNat
  else if c.toNat < 127 then [c]
  else if c.toNat < 65536 then '\\' :: 'u' :: hex4 c.toNat
  else
    ('\\' :: 'u' :: hex4 (55296 + (c.toNat - 65536) / 1024)) ++
      ('\\' :: 'u' :: hex4 (56320 + (c.toNat - 65536) % 1024))

mutual

/-- `json.dumps` with its default separators. -/
def jsonDumps : JVal → String
  | .null => "null"
  | .bool true => "true"
  | .bool false => "false"
  | .num n => toString n
  | .str s => "\"" ++ String.mk (s.data.flatMap jEscChar) ++ "\""
  | .arr xs => "[" ++ jsonDumpsArr xs ++ "]"
  | .obj fs => "\x7b" ++ jsonDumpsObj fs ++ "\x7d"

/-- Comma-separated dump of an array body. -/
def jsonDumpsArr : List JVal → String
  | [] => ""
  | [x] => jsonDumps x
  | x :: xs => jsonDumps x ++ ", " ++ jsonDumpsArr xs

/-- Comma-separated dump of an object body. -/
def jsonDumpsObj : List (String × JVal) → String
  | [] => ""
  | [(k, v)] => "\"" ++ String.mk (k.data.flatMap jEscChar) ++ "\": " ++ jsonDumps v
  | (k, v) :: xs =>
    "\"" ++ String.mk (k.data.flatMap jEscChar) ++ "\": " ++ jsonDumps v ++ ", " ++ jsonDumpsObj xs

end

/-- The singleton `UnlayerCertificateTemplate` row: a serialized design
blob and the exported HTML (here the raw JSON value assigned by the save
route). -/
structure TemplateRow where
  design_json : Option String
  html : Option JVal

/-- `api_certificate_template_save` from `artistdb/routes/certificates.py`:
the parsed payload is `none` for a missing/unparsable body and otherwise
the dict's items; a falsy payload or a missing `design_json`/`html` key
gives 400 and leaves the row unchanged; otherwise both fields are
overwritten and 200 is returned. -/
def api_certificate_template_save (tpl : TemplateRow)
    (payload : Option (List (String × JVal))) : TemplateRow × Nat :=
  match payload with
  | Option.none => (tpl, 400)
  | some items =>
    if items.isEmpty then (tpl, 400)
    else
      match items.lookup "design_json", items.lookup "html" with
      | some d, some h => ({ design_json := some (jsonDumps d), html := some h }, 200)
      | _, _ => (tpl, 400)

/-- Substring test: does `pat` occur contiguously in the text? -/
def containsSub (pat : List Char) : List Char → Bool
  | [] => (takeLit pat []).isSome
  | c :: cs => (takeLit pat (c :: cs)).isSome || containsSub pat cs

/-- A filesystem snapshot is consistent when the existence check and the
read agree on every path. -/
def FS.Consistent (fs : FS) : Prop :=
  ∀ p, fs.isfile p = (fs.read p).isSome

/-- A filesystem on which every path exists but every read fails. -/
def fsReadFail : FS :=
  ⟨fun _ => true, fun _ => Option.none⟩

/-- An empty filesystem. -/
def fsEmpty : FS :=
  ⟨fun _ => false, fun _ => Option.none⟩

/-- An artwork with no stored data at all (every nullable column unset). -/
def artNoImage : Artwork :=
  ⟨1, Option.none, Option.none, Option.none, Option.none, Option.none, Option.none⟩

/-- C4: the value formatter returns the same em dash for an absent value,
the empty string and a whitespace-only string; for every input whose
trimmed text is non-empty it returns the trimmed text with the
markup-significant characters HTML-escaped (in particular `"A & B"` maps
to text containing `"&amp;"`); and it is total on every modelled input,
always returning one of those two forms, so no exception is possible. -/
theorem C4_safe_text_formatter :
    (safe_textS PyVal.none = "—" ∧ safe_textS (.str "") = "—" ∧ safe_textS (.str "   ") = "—")
    ∧ (∀ s : String, pyStrip s.data ≠ [] →
        safe_textS (.str s) = String.mk (htmlEscape (pyStrip s.data)))
    ∧ containsSub "&amp;".data (safe_textS (.str "A & B")).data = true
    ∧ (∀ v : PyVal, safe_textS v = "—"
        ∨ safe_textS v = String.mk (htmlEscape (pyStrip (pyStr v).data))) := by
  refine ⟨by decide, fun s hs => ?_, by decide, fun v => ?_⟩
  · simp only [safe_textS, safe_text, pyStr]
    rw [if_neg hs]
  · cases v with
    | none => exact Or.inl rfl
    | str s =>
      by_cases hs : pyStrip s.data = []
      · exact Or.inl (by simp only [safe_textS, safe_text, pyStr]; rw [if_pos hs])
      · exact Or.inr (by simp only [safe_textS, safe_text, pyStr]; rw [if_neg hs])
    | int n =>
      by_cases hs : pyStrip (toString n).data = []
      · exact Or.inl (by simp only [safe_textS, safe_text, pyStr]; rw [if_pos hs])
      · exact Or.inr (by simp only [safe_textS, safe_text, pyStr]; rw [if_neg hs])

/-- Witness for C4 at a concrete non-empty input. -/
theorem C4_witness :
    pyStrip " hi ".data ≠ [] ∧
      safe_textS (.str " hi ") = String.mk (htmlEscape (pyStrip " hi ".data)) :=
  ⟨by decide, C4_safe_text_formatter.2.1 " hi " (by decide)⟩

/-- C5 counterexample: an artwork whose image file passes the existence
check but whose read fails makes `artwork_image_data_uri` raise (the
source has no exception handling around `open`/`read`), instead of
returning the empty string as the claim states. -/
theorem C5_counterexample :
    artwork_image_data_uri ⟨1, Option.none, Option.none, Option.none, Option.none, Option.none,
        some "a.png"⟩ "up" fsReadFail = .error .ioError
    ∧ (Except.error PyErr.ioError ≠ (Except.ok "" : Except PyErr String)) := by
  exact ⟨by decide, by simp⟩

/-- C5 (amended): the image inliner returns the empty string when the
image reference is unset or empty or when the referenced path fails the
`isfile` check; a filesystem read failure on a path that passed the check
propagates as an exception, as does the extension split on a dotless
filename. -/
theorem C5_image_inliner_degrades (a : Artwork) (folder : String) (fs : FS) :
    (a.image_filename = Option.none → artwork_image_data_uri a folder fs = .ok "")
    ∧ (a.image_filename = some "" → artwork_image_data_uri a folder fs = .ok "")
    ∧ (∀ fn, a.image_filename = some fn → fs.isfile (joinPath folder fn) = false →
        artwork_image_data_uri a folder fs = .ok "") := by
  refine ⟨fun h => ?_, fun h => ?_, fun fn h hf => ?_⟩
  · simp [artwork_image_data_uri, h]
  · simp [artwork_image_data_uri, h]
  · unfold artwork_image_data_uri
    rw [h]
    by_cases hfn : fn = "" <;> simp [hfn, hf]

/-- Witness for the amended C5 at concrete inputs. -/
theorem C5_witness :
    artNoImage.image_filename = Option.none ∧
      artwork_image_data_uri artNoImage "up" fsEmpty = .ok "" :=
  ⟨rfl, (C5_image_inliner_degrades artNoImage "up" fsEmpty).1 rfl⟩

/-- C10: on a consistent filesystem snapshot, for an artwork whose
`image_filename` contains a dot the inliner is total (never an error): it
returns `""` when the file is absent, and otherwise the data URI built
from the base64 bytes, with MIME type `image/jpeg` exactly when the text
after the last dot lowercases to `jpg` or `jpeg` and `image/png` for
every other extension. -/
theorem C10_image_inliner_total (a : Artwork) (folder : String) (fs : FS) (fn : String)
    (hc : FS.Consistent fs) (hfn : a.image_filename = some fn)
    (hdot : fn.data.contains '.' = true) :
    (∀ e : PyErr, artwork_image_data_uri a folder fs ≠ Except.error e)
    ∧ (fs.isfile (joinPath folder fn) = false → artwork_image_data_uri a folder fs = .ok "")
    ∧ (∀ bytes ext, fs.read (joinPath folder fn) = some bytes →
        extAfterLastDot fn.data = some ext →
        artwork_image_data_uri a folder fs = .ok ("data:" ++
          (if ext.map Char.toLower = "jpg".data || ext.map Char.toLower = "jpeg".data
           then "image/jpeg" else "image/png") ++ ";base64," ++
          String.mk (base64Encode bytes))) := by
  have hne : fn ≠ "" := by
    intro he
    subst he
    simp [List.contains] at hdot
  have hext : extAfterLastDot fn.data = some ((fn.data.reverse.takeWhile (fun c => c ≠ '.')).reverse) := by
    unfold extAfterLastDot
    rw [if_pos hdot]
  refine ⟨fun e => ?_, fun hf => ?_, fun bytes ext hr hx => ?_⟩
  · unfold artwork_image_data_uri
    simp only [hfn]
    rw [if_neg hne]
    cases hif : fs.isfile (joinPath folder fn) with
    | false => simp [hif]
    | true =>
      have hsome : (fs.read (joinPath folder fn)).isSome = true := by rw [← hc]; exact hif
      rw [Option.isSome_iff_exists] at hsome
      obtain ⟨bytes, hb⟩ := hsome
      simp [hif, hext, hb]
  · unfold artwork_image_data_uri
    simp only [hfn]
    simp [hne, hf]
  · unfold artwork_image_data_uri
    simp only [hfn]
    rw [if_neg hne]
    have hif : fs.isfile (joinPath folder fn) = true := by
      rw [hc, hr]
      rfl
    simp [hif, hx, hr]

/-- Witness for C10 on a consistent empty filesystem. -/
theorem C10_witness :
    artwork_image_data_uri ⟨1, Option.none, Option.none, Option.none, Option.none, Option.none,
        some "a.png"⟩ "up" fsEmpty = .ok "" :=
  (C10_image_inliner_total _ "up" fsEmpty "a.png" (fun _ => rfl) rfl (by decide)).2.1 rfl

/-- C7: a token made by `make_box_token` under the same secret verifies
within the default five-year maximum age and decodes to its artwork id; a
token generated for artwork id 7 grants no update capability on the page
of artwork id 8 (verification decodes id 7, which does not match the path
id); a token older than the maximum age fails with the expired signal; a
wrong signature fails with the invalid-signature signal; and the two
failure signals are distinguishable. -/
theorem C7_box_token_verification (secret : String) (artwork_id : Int) (ts now : Nat) :
    (now - ts ≤ box_max_age_default →
      verify_box_token secret (make_box_token secret artwork_id ts) now box_max_age_default
        = .ok artwork_id)
    ∧ boxCanUpdate secret (some (make_box_token secret 7 ts)) 8 now = false
    ∧ (now - ts > box_max_age_default →
      verify_box_token secret (make_box_token secret artwork_id ts) now box_max_age_default
        = .error .signatureExpired)
    ∧ (∀ s, s ≠ macSign secret artwork_id ts →
      verify_box_token secret ⟨artwork_id, ts, s⟩ now box_max_age_default
        = .error .badSignature)
    ∧ TokenErr.signatureExpired ≠ TokenErr.badSignature := by
  refine ⟨fun h => ?_, ?_, fun h => ?_, fun s hs => ?_, by simp⟩
  · unfold verify_box_token make_box_token
    dsimp only
    rw [if_neg (by simp), if_neg (by omega)]
  · unfold boxCanUpdate verify_box_token make_box_token
    simp only
    rw [if_neg (by simp)]
    by_cases hage : now - ts > box_max_age_default
    · rw [if_pos hage]
    · rw [if_neg hage]
      simp
  · unfold verify_box_token make_box_token
    dsimp only
    rw [if_neg (by simp), if_pos (by omega)]
  · unfold verify_box_token
    rw [if_pos (by simpa using hs)]

/-- Witness for C7 at concrete inputs. -/
theorem C7_witness :
    verify_box_token "s3cret" (make_box_token "s3cret" 7 1000) 2000 box_max_age_default
      = .ok 7 ∧
    verify_box_token "s3cret" (make_box_token "s3cret" 7 0) (box_max_age_default + 1)
      box_max_age_default = .error .signatureExpired := by
  constructor
  · exact (C7_box_token_verification "s3cret" 7 1000 2000).1 (by decide)
  · exact (C7_box_token_verification "s3cret" 7 0 (box_max_age_default + 1)).2.2.1 (by omega)

/-- C8: with the artwork present, the box POST appends exactly one
location-log row if and only if the token grants the update capability
for that artwork id and the stripped location is non-empty; in every
other case the stored log is unchanged, and an append always changes the
stored log. -/
theorem C8_box_post_append_iff (artworks : List Int) (db : List LocationLog) (secret : String)
    (path_id : Int) (tok : Option SignedToken) (now : Nat) (location note : String)
    (hex : artworks.contains path_id = true) :
    (boxCanUpdate secret tok path_id now = true → pyStripS location ≠ "" →
      box_page_post artworks db secret path_id tok now location note
        = db ++ [⟨path_id, pyStripS location, pyStripS note⟩])
    ∧ (boxCanUpdate secret tok path_id now = false →
      box_page_post artworks db secret path_id tok now location note = db)
    ∧ (pyStripS location = "" →
      box_page_post artworks db secret path_id tok now location note = db)
    ∧ (∀ row : LocationLog, db ++ [row] ≠ db) := by
  refine ⟨fun hcan hloc => ?_, fun hcan => ?_, fun hloc => ?_, fun row h => ?_⟩
  · unfold box_page_post
    rw [if_pos hex, if_pos hcan]
    simp only
    rw [if_neg hloc]
  · unfold box_page_post
    rw [if_pos hex, if_neg (by simp [hcan])]
  · unfold box_page_post
    rw [if_pos hex]
    by_cases hcan : boxCanUpdate secret tok path_id now = true
    · rw [if_pos hcan]
      simp only
      rw [if_pos hloc]
    · rw [if_neg hcan]
  · have := congrArg List.length h
    simp at this

/-- Witness for C8 at concrete inputs. -/
theorem C8_witness :
    box_page_post [5] [] "s" 5 (some (make_box_token "s" 5 0)) 10 " Vault 3 " ""
      = [⟨5, "Vault 3", ""⟩] := by
  have h := (C8_box_post_append_iff [5] [] "s" 5 (some (make_box_token "s" 5 0)) 10
    " Vault 3 " "" (by decide)).1 (by decide) (by decide)
  rw [h]
  rfl

/-- C9: the certificate-template save endpoint returns 400 and leaves the
stored row unchanged when the payload is missing or falsy or lacks the
`design_json` or `html` field; when both fields are present it overwrites
the whole row with the serialized design and the posted HTML and returns
success. -/
theorem C9_template_save (tpl : TemplateRow) :
    api_certificate_template_save tpl Option.none = (tpl, 400)
    ∧ api_certificate_template_save tpl (some []) = (tpl, 400)
    ∧ (∀ items : List (String × JVal),
        items.lookup "design_json" = Option.none ∨ items.lookup "html" = Option.none →
        api_certificate_template_save tpl (some items) = (tpl, 400))
    ∧ (∀ items d h, items.lookup "design_json" = some d → items.lookup "html" = some h →
        api_certificate_template_save tpl (some items)
          = ({ design_json := some (jsonDumps d), html := some h }, 200)) := by
  refine ⟨rfl, rfl, fun items hmiss => ?_, fun items d h hd hh => ?_⟩
  · unfold api_certificate_template_save
    dsimp only
    by_cases he : items.isEmpty
    · rw [if_pos he]
    · rw [if_neg he]
      rcases hmiss with hm | hm
      · rw [hm]
      · rw [hm]
        cases items.lookup "design_json" <;> rfl
  · unfold api_certificate_template_save
    dsimp only
    have hne : ¬ items.isEmpty := by
      intro he
      rw [List.isEmpty_iff.mp he] at hd
      simp [List.lookup] at hd
    rw [if_neg hne, hd, hh]

/-- Witness for C9 at concrete inputs. -/
theorem C9_witness :
    api_certificate_template_save ⟨Option.none, Option.none⟩
        (some [("design_json", JVal.obj []), ("html", JVal.str "<p>x</p>")])
      = (⟨some "\x7b\x7d", some (JVal.str "<p>x</p>")⟩, 200) := by
  have h := (C9_template_save ⟨Option.none, Option.none⟩).2.2.2
    [("design_json", JVal.obj []), ("html", JVal.str "<p>x</p>")]
    (JVal.obj []) (JVal.str "<p>x</p>") rfl rfl
  rw [h]
  rfl

/-- Check that the placeholder pattern `o k c` matches at no position of
the text (i.e. at no suffix). -/
def noMatchTailsB (o k c : List Char) : List Char → Bool
  | [] => (matchPh o k c []).isNone
  | x :: xs => (matchPh o k c (x :: xs)).isNone && noMatchTailsB o k c xs

theorem noMatchTailsB_suffix (o k c : List Char) :
    ∀ (t s : List Char), noMatchTailsB o k c t = true → s <:+ t → matchPh o k c s = none
  | [], s, h, hs => by
    have hnil : s = [] := List.suffix_nil.mp hs
    subst hnil
    simpa [noMatchTailsB, Option.isNone_iff_eq_none] using h
  | x :: xs, s, h, hs => by
    simp only [noMatchTailsB, Bool.and_eq_true, Option.isNone_iff_eq_none] at h
    rcases List.suffix_cons_iff.mp hs with h1 | h1
    · subst h1
      exact h.1
    · exact noMatchTailsB_suffix o k c xs s h.2 h1

theorem reSub_id_of_noMatch (o : Char) (os k c v : List Char) :
    ∀ t : List Char, (∀ s, s <:+ t → matchPh (o :: os) k c s = none) →
      reSub o os k c v t = t
  | [], _ => reSub_nil o os k c v
  | x :: xs, h => by
    rw [reSub_cons_nomatch o os k c v x xs (h (x :: xs) (List.suffix_refl _)),
      reSub_id_of_noMatch o os k c v xs (fun s hs => h s (hs.trans (List.suffix_cons x xs)))]

theorem reSubS_id (o k c v t : String)
    (h : ∀ s, s <:+ t.data → matchPh o.data k.data c.data s = none) :
    reSubS o k c v t = t := by
  unfold reSubS
  cases hod : o.data with
  | nil => rfl
  | cons oh ot =>
    dsimp only
    rw [reSub_id_of_noMatch oh ot k.data c.data v.data t.data (by rw [← hod]; exact h)]

theorem subAllPats_id (k v t : String)
    (h : ∀ oc ∈ delims, ∀ s, s <:+ t.data → matchPh oc.1.data k.data oc.2.data s = none) :
    subAllPats k v t = t := by
  unfold subAllPats
  simp only [delims, List.foldl_cons, List.foldl_nil]
  rw [reSubS_id "%%" k "%%" v t (h ("%%", "%%") (by simp [delims])),
    reSubS_id "[[" k "]]" v t (h ("[[", "]]") (by simp [delims])),
    reSubS_id "\x7b\x7b" k "\x7d\x7d" v t (h ("\x7b\x7b", "\x7d\x7d") (by simp [delims])),
    reSubS_id "&#91;&#91;" k "&#93;&#93;" v t (h ("&#91;&#91;", "&#93;&#93;") (by simp [delims])),
    reSubS_id "&#123;&#123;" k "&#125;&#125;" v t
      (h ("&#123;&#123;", "&#125;&#125;") (by simp [delims])),
    reSubS_id "&lbrack;&lbrack;" k "&rbrack;&rbrack;" v t
      (h ("&lbrack;&lbrack;", "&rbrack;&rbrack;") (by simp [delims]))]

theorem mergeFold_id (values : List (String × String)) (t : String)
    (h : ∀ kv ∈ values, ∀ oc ∈ delims, ∀ s, s <:+ t.data →
      matchPh oc.1.data kv.1.data oc.2.data s = none) :
    mergeFold values t = t := by
  induction values with
  | nil => rfl
  | cons kv rest ih =>
    unfold mergeFold
    simp only [List.foldl_cons]
    rw [subAllPats_id kv.1 kv.2 t (h kv (by simp))]
    exact ih (fun kv' hkv' => h kv' (by simp [hkv']))

/-- No recognized placeholder pattern (any of the six delimiter pairs,
any of the ten keys) matches anywhere in the text. -/
def cleanB (t : String) : Bool :=
  delims.all fun oc => keyNames.all fun k => noMatchTailsB oc.1.data k.data oc.2.data t.data

theorem cleanB_noMatch {t : String} (h : cleanB t = true) :
    ∀ oc ∈ delims, ∀ k ∈ keyNames, ∀ s, s <:+ t.data →
      matchPh oc.1.data k.data oc.2.data s = none := by
  intro oc hoc k hk s hs
  unfold cleanB at h
  rw [List.all_eq_true] at h
  have h2 := h oc hoc
  rw [List.all_eq_true] at h2
  exact noMatchTailsB_suffix _ _ _ _ _ (h2 k hk) hs

/-- The resolver produces exactly the recognized keys, in order. -/
theorem resolveValues_keys (a : Artwork) (artist img today : String) :
    (resolveValues a artist img today).map Prod.fst = keyNames := rfl

/-- C6 counterexample: with an imageless artwork, a template with no
placeholder occurrence at all is altered by the merge (the stripping pass
removes an empty-src image tag and thereby creates a new one), and a
second merge of the output changes the text again, so the claimed
idempotence fails as stated. -/
theorem C6_counterexample :
    merge_unlayer_html "<i<img src=\"\">mg src=\"\">" artNoImage "J" "up" fsEmpty "2026-10-12"
      = .ok "<img src=\"\">"
    ∧ merge_unlayer_html "<img src=\"\">" artNoImage "J" "up" fsEmpty "2026-10-12" = .ok ""
    ∧ ("<img src=\"\">" : String) ≠ "" :=
  ⟨by decide, by decide, by decide⟩

/-- C6 (amended): when an image is available (non-empty image value, so
the stripping pass is skipped) merging a template that contains no
occurrence of any recognized placeholder pattern returns it unchanged,
and a second merge of such an output with the same mapping changes
nothing. -/
theorem C6_merge_identity (a : Artwork) (artist img today template : String)
    (hclean : cleanB template = true) (himg : img ≠ "") :
    mergeResolved template (resolveValues a artist img today) img = template
    ∧ mergeResolved (mergeResolved template (resolveValues a artist img today) img)
        (resolveValues a artist img today) img
      = mergeResolved template (resolveValues a artist img today) img := by
  have hm : mergeFold (resolveValues a artist img today) template = template := by
    apply mergeFold_id
    intro kv hkv oc hoc s hs
    have hk : kv.1 ∈ keyNames := by
      rw [← resolveValues_keys a artist img today]
      exact List.mem_map_of_mem Prod.fst hkv
    exact cleanB_noMatch hclean oc hoc kv.1 hk s hs
  have h1 : mergeResolved template (resolveValues a artist img today) img = template := by
    unfold mergeResolved
    rw [if_neg himg, hm]
  exact ⟨h1, by rw [h1]; exact h1⟩

/-- Witness for the amended C6 at a concrete placeholder-free template. -/
theorem C6_witness :
    mergeResolved "hello" (resolveValues artNoImage "J" "x" "2026-10-12") "x" = "hello" :=
  (C6_merge_identity artNoImage "J" "x" "2026-10-12" "hello" (by decide) (by decide)).1

/-- Does the text contain a match of the empty-src image-tag pattern at
any position? -/
def containsEmptySrcImg : List Char → Bool
  | [] => (matchImgTag []).isSome
  | c :: cs => (matchImgTag (c :: cs)).isSome || containsEmptySrcImg cs

/-- C3 counterexample: with an imageless artwork, the merge of a template
without placeholders can produce output that still contains an `<img>`
element with empty `src` (the removal of one match concatenates its
context into a new match that the single pass never rescans), refuting
the claimed universally empty-src-free output. -/
theorem C3_counterexample :
    merge_unlayer_html "<i<img src=\"\">mg src=\"\">" artNoImage "J. Doe" "up" fsEmpty
      "2026-10-12" = .ok "<img src=\"\">"
    ∧ containsEmptySrcImg "<img src=\"\">".data = true :=
  ⟨by decide, by decide⟩

/-- C3 (amended): the stripping pass runs exactly when the resolved image
value is empty — with a non-empty image value the merge is the pure
substitution fold, with an empty one the fold's output additionally goes
through one `strip_empty_image_tags` pass — and the template
`<img src="[[artwork_image_url]]">` merged for an imageless artwork
yields output with the whole tag removed. -/
theorem C3_strip_on_empty_image :
    (∀ template values img, img ≠ "" →
      mergeResolved template values img = mergeFold values template)
    ∧ (∀ template values,
      mergeResolved template values "" = strip_empty_image_tagsS (mergeFold values template))
    ∧ merge_unlayer_html "<img src=\"[[artwork_image_url]]\">" artNoImage "J" "up" fsEmpty
        "2026-10-12" = .ok "" := by
  refine ⟨fun template values img h => ?_, fun template values => rfl, by decide⟩
  unfold mergeResolved
  rw [if_neg h]

/-- Witness for the amended C3. -/
theorem C3_witness :
    mergeResolved "t" [] "u" = mergeFold [] "t" :=
  C3_strip_on_empty_image.1 "t" [] "u" (by decide)

/-- Artworks exercising the re-scanning of substituted values. -/
def artC2 : Artwork :=
  ⟨1, some "\x7b\x7byear\x7d\x7d", some "2021", Option.none, Option.none, Option.none,
    Option.none⟩

def artC2own : Artwork :=
  ⟨1, Option.none, some "x\x7b\x7byear\x7d\x7d", Option.none, Option.none, Option.none,
    Option.none⟩

/-- C2 counterexample: an artwork title whose resolved value is the
literal text of a later key's placeholder is re-interpreted by that later
key's pass — the merged output is the year value, not the inserted
literal title — refuting the claimed never-rescanned substitution and
order independence. -/
theorem C2_counterexample :
    merge_unlayer_html "[[artwork_title]]" artC2 "J. Doe" "up" fsEmpty "2026-10-12" = .ok "2021"
    ∧ safe_textS (optVal artC2.title) = "\x7b\x7byear\x7d\x7d"
    ∧ ("2021" : String) ≠ "\x7b\x7byear\x7d\x7d" :=
  ⟨by decide, by decide, by decide⟩

/-- C2 (amended): within a single pattern pass the replacement is not
rescanned (a year value containing its own placeholder text survives the
merge verbatim), but keys are processed sequentially, so a value inserted
by an earlier key's pass is scanned by later keys' passes and the
processing order can change the result. -/
theorem C2_literal_substitution :
    merge_unlayer_html "\x7b\x7byear\x7d\x7d" artC2own "J" "up" fsEmpty "2026-10-12"
      = .ok "x\x7b\x7byear\x7d\x7d"
    ∧ merge_unlayer_html "[[artwork_title]]" artC2 "J. Doe" "up" fsEmpty "2026-10-12" = .ok "2021"
    ∧ mergeFold [("artwork_title", "\x7b\x7byear\x7d\x7d"), ("year", "2021")] "[[artwork_title]]"
      = "2021"
    ∧ mergeFold [("year", "2021"), ("artwork_title", "\x7b\x7byear\x7d\x7d")] "[[artwork_title]]"
      = "\x7b\x7byear\x7d\x7d" :=
  ⟨by decide, by decide, by decide, by decide⟩

/-- Head of the list exists and is a word character. -/
def headWordB : List Char → Bool
  | [] => false
  | x :: _ => isWordChar x

/-- Head of the list exists and is not whitespace. -/
def headNonWsB : List Char → Bool
  | [] => false
  | x :: _ => !isPySpace x

/-- Head of the list exists and is not a word character. -/
def headNonWordB : List Char → Bool
  | [] => false
  | x :: _ => !isWordChar x

theorem headWordB_elim {l : List Char} (h : headWordB l = true) :
    ∃ x xs, l = x :: xs ∧ isWordChar x = true := by
  match l, h with
  | x :: xs, h => exact ⟨x, xs, rfl, by simpa [headWordB] using h⟩

theorem headNonWsB_elim {l : List Char} (h : headNonWsB l = true) :
    ∃ x xs, l = x :: xs ∧ isPySpace x = false := by
  match l, h with
  | x :: xs, h => exact ⟨x, xs, rfl, by simpa [headNonWsB] using h⟩

theorem headNonWordB_elim {l : List Char} (h : headNonWordB l = true) :
    ∃ x xs, l = x :: xs ∧ isWordChar x = false := by
  match l, h with
  | x :: xs, h => exact ⟨x, xs, rfl, by simpa [headNonWordB] using h⟩

theorem word_not_ws {x : Char} (h : isWordChar x = true) : isPySpace x = false := by
  cases hw : isPySpace x
  · rfl
  · exfalso
    simp only [isPySpace, Bool.or_eq_true, decide_eq_true_eq] at hw
    rcases hw with ((((h1 | h1) | h1) | h1) | h1) | h1 <;> subst h1 <;> exact absurd h (by decide)

theorem ws_not_lt {x : Char} (h : isPySpace x = true) : x ≠ '<' := by
  simp only [isPySpace, Bool.or_eq_true, decide_eq_true_eq] at h
  rcases h with ((((h1 | h1) | h1) | h1) | h1) | h1 <;> subst h1 <;> decide

theorem word_not_lt {x : Char} (h : isWordChar x = true) : x ≠ '<' := by
  intro he
  subst he
  exact absurd h (by decide)

theorem takeLit_refl_append : ∀ (p r : List Char), takeLit p (p ++ r) = some r
  | [], _ => rfl
  | x :: xs, r => by
    simp only [List.cons_append, takeLit, if_pos]
    exact takeLit_refl_append xs r

theorem skipWs_append_ws : ∀ (w r : List Char), w.all isPySpace = true →
    skipWs (w ++ r) = skipWs r
  | [], _, _ => rfl
  | x :: xs, r, h => by
    simp only [List.all_cons, Bool.and_eq_true] at h
    simp only [List.cons_append, skipWs]
    rw [if_pos h.1]
    exact skipWs_append_ws xs r h.2

theorem skipWs_nonWs {x : Char} (r : List Char) (h : isPySpace x = false) :
    skipWs (x :: r) = x :: r := by
  simp only [skipWs]
  rw [if_neg (by simp [h])]

theorem matchPh_occ (o k c w1 w2 rest : List Char)
    (hw1 : w1.all isPySpace = true) (hw2 : w2.all isPySpace = true)
    (hk : headNonWsB k = true) (hc : headNonWsB c = true) :
    matchPh o k c (o ++ (w1 ++ (k ++ (w2 ++ (c ++ rest))))) = some rest := by
  obtain ⟨kh, kt, hke, hkh⟩ := headNonWsB_elim hk
  obtain ⟨ch, ct, hce, hch⟩ := headNonWsB_elim hc
  unfold matchPh
  rw [takeLit_refl_append]
  dsimp only
  rw [skipWs_append_ws _ _ hw1, hke, List.cons_append, skipWs_nonWs _ hkh, ← List.cons_append,
    ← hke, takeLit_refl_append]
  dsimp only
  rw [skipWs_append_ws _ _ hw2, hce, List.cons_append, skipWs_nonWs _ hch, ← List.cons_append,
    ← hce, takeLit_refl_append]

/-- A template that is exactly one placeholder occurrence: opening
delimiter, inner whitespace, key, inner whitespace, closing delimiter. -/
def phOcc (o k : String) (w1 w2 : List Char) (c : String) : String :=
  String.mk (o.data ++ (w1 ++ (k.data ++ (w2 ++ c.data))))

theorem reSub_occ (o : Char) (os k c v w1 w2 : List Char)
    (hw1 : w1.all isPySpace = true) (hw2 : w2.all isPySpace = true)
    (hk : headNonWsB k = true) (hc : headNonWsB c = true) :
    reSub o os k c v ((o :: os) ++ (w1 ++ (k ++ (w2 ++ c)))) = v := by
  have hm : matchPh (o :: os) k c ((o :: os) ++ (w1 ++ (k ++ (w2 ++ c)))) = some [] := by
    have h := matchPh_occ (o :: os) k c w1 w2 [] hw1 hw2 hk hc
    simpa using h
  have hcm := reSub_cons_match o os k c v o (os ++ (w1 ++ (k ++ (w2 ++ c)))) [] hm
  rw [List.cons_append, hcm, reSub_nil, List.append_nil]

theorem reSubS_occ (o k c v : String) (w1 w2 : List Char)
    (hw1 : w1.all isPySpace = true) (hw2 : w2.all isPySpace = true)
    (hone : o.data ≠ []) (hk : headNonWsB k.data = true) (hc : headNonWsB c.data = true) :
    reSubS o k c v (phOcc o k w1 w2 c) = v := by
  unfold reSubS phOcc
  cases hod : o.data with
  | nil => exact absurd hod hone
  | cons oh ot =>
    dsimp only
    rw [reSub_occ oh ot k.data c.data v.data w1 w2 hw1 hw2 hk hc]

theorem matchPh_none_head {o x : Char} (os k c xs : List Char) (h : o ≠ x) :
    matchPh (o :: os) k c (x :: xs) = none := by
  unfold matchPh
  simp [takeLit, h]

theorem matchPh_none_of_takeLit (o k c t : List Char) (h : takeLit o t = none) :
    matchPh o k c t = none := by
  unfold matchPh
  rw [h]

/-- Is there a position below `min (length p) (length t)` where `p` and
`t` disagree? If so, `p` is not a prefix of `t ++ anything`. -/
def mismatchB : List Char → List Char → Bool
  | _, [] => false
  | [], _ => false
  | a :: as, b :: bs => (a != b) || mismatchB as bs

theorem takeLit_none_of_mismatch : ∀ (p t rest : List Char), mismatchB p t = true →
    takeLit p (t ++ rest) = none
  | [], t, _, h => by cases t <;> simp [mismatchB] at h
  | _ :: _, [], _, h => by simp [mismatchB] at h
  | p :: ps, b :: bs, rest, h => by
    simp only [mismatchB, Bool.or_eq_true, bne_iff_ne] at h
    simp only [List.cons_append, takeLit]
    by_cases he : p = b
    · subst he
      rw [if_pos rfl]
      rcases h with h | h
      · exact absurd rfl h
      · exact takeLit_none_of_mismatch ps bs rest h
    · rw [if_neg he]

theorem takeLit_eq_append : ∀ (p t r : List Char), takeLit p t = some r → t = p ++ r
  | [], t, r, h => by
    have ht : t = r := by simpa [takeLit] using h
    simp [ht]
  | _ :: _, [], _, h => by simp [takeLit] at h
  | p :: ps, b :: bs, r, h => by
    simp only [takeLit] at h
    split at h
    · rename_i hpb
      have hbs := takeLit_eq_append ps bs r h
      simp [hpb, hbs]
    · exact absurd h (by simp)

theorem takeLit_append_left : ∀ (a b t : List Char), takeLit (a ++ b) (a ++ t) = takeLit b t
  | [], _, _ => rfl
  | x :: xs, b, t => by
    simp only [List.cons_append, takeLit, if_pos]
    exact takeLit_append_left xs b t

theorem takeLit_stop (χ : Char) (l w u rest : List Char)
    (hχws : isPySpace χ = false) (hχw : isWordChar χ = false)
    (hw : w.all isPySpace = true) (hu : headWordB u = true) :
    takeLit (χ :: l) (w ++ (u ++ rest)) = none := by
  match w, hw with
  | [], _ =>
    obtain ⟨uh, ut, hue, huh⟩ := headWordB_elim hu
    have hne : χ ≠ uh := by
      intro he
      rw [he, huh] at hχw
      exact Bool.noConfusion hχw
    simp [hue, takeLit, hne]
  | y :: ys, hw =>
    have hy : isPySpace y = true := by
      simp only [List.all_cons, Bool.and_eq_true] at hw
      exact hw.1
    have hne : χ ≠ y := by
      intro he
      rw [he, hy] at hχws
      exact Bool.noConfusion hχws
    simp [takeLit, hne]

/-- `ς` is a proper non-empty suffix of some opening delimiter: the open
`o'` either disagrees with `ς` within `min`-length, or consumes all of
`ς` and then expects a specific non-whitespace non-word character. -/
def openVsSfxOk (o' ς : List Char) : Bool :=
  mismatchB o' ς ||
    (match takeLit ς o' with
     | some (δ :: _) => !isPySpace δ && !isWordChar δ
     | _ => false)

theorem openVsSfxOk_none (o' ς w u rest : List Char)
    (hok : openVsSfxOk o' ς = true)
    (hw : w.all isPySpace = true) (hu : headWordB u = true) :
    takeLit o' (ς ++ (w ++ (u ++ rest))) = none := by
  unfold openVsSfxOk at hok
  rw [Bool.or_eq_true] at hok
  rcases hok with hmis | hb
  · exact takeLit_none_of_mismatch o' ς _ hmis
  · cases hd : takeLit ς o' with
    | none => rw [hd] at hb; exact absurd hb (by simp)
    | some ρ =>
      rw [hd] at hb
      match ρ, hb with
      | [], hb => exact absurd hb (by simp)
      | δ :: ρ', hb =>
        have hδ : isPySpace δ = false ∧ isWordChar δ = false := by
          simpa [Bool.and_eq_true] using hb
        have ho : o' = ς ++ (δ :: ρ') := takeLit_eq_append ς o' (δ :: ρ') hd
        rw [ho, takeLit_append_left]
        exact takeLit_stop δ ρ' w u rest hδ.1 hδ.2 hw hu

/-- `σ` is a suffix of some closing delimiter sitting at the very end of
the template: the open `o'` either fails on `σ`, or after it (and any
whitespace) the head is not a word character, so no key can follow. -/
def closeVsOpenOk (o' σ : List Char) : Bool :=
  match takeLit o' σ with
  | none => true
  | some r =>
    match skipWs r with
    | [] => true
    | x :: _ => !isWordChar x

theorem closeVsOpenOk_none (o' k' c' σ : List Char)
    (hok : closeVsOpenOk o' σ = true) (hk' : headWordB k' = true) :
    matchPh o' k' c' σ = none := by
  obtain ⟨kh, kt, hke, hkh⟩ := headWordB_elim hk'
  unfold matchPh
  unfold closeVsOpenOk at hok
  cases hd : takeLit o' σ with
  | none => rfl
  | some r =>
    rw [hd] at hok
    dsimp only at hok
    dsimp only
    cases hsk : skipWs r with
    | nil =>
      rw [hke]
      simp [takeLit]
    | cons x xs =>
      rw [hsk] at hok
      have hx : isWordChar x = false := by simpa using hok
      have hne : kh ≠ x := by
        intro he
        rw [← he, hkh] at hx
        exact Bool.noConfusion hx
      rw [hke]
      simp [takeLit, hne]

theorem takeLit_word_key : ∀ (k' u w2 z r : List Char),
    k'.all isWordChar = true → u.all isWordChar = true → w2.all isPySpace = true →
    headNonWordB z = true → takeLit k' (u ++ (w2 ++ z)) = some r →
    ∃ urest, u = k' ++ urest ∧ r = urest ++ (w2 ++ z)
  | [], u, w2, z, r, _, _, _, _, h => by
    refine ⟨u, rfl, ?_⟩
    have : u ++ (w2 ++ z) = r := by simpa [takeLit] using h
    exact this.symm
  | a :: as, [], w2, z, r, hk, _, hw2, hz, h => by
    exfalso
    have ha : isWordChar a = true := by
      simp only [List.all_cons, Bool.and_eq_true] at hk
      exact hk.1
    rw [List.nil_append] at h
    obtain ⟨zh, zt, hze, hzh⟩ := headNonWordB_elim hz
    match w2, hw2 with
    | [], _ =>
      have hne : a ≠ zh := by
        intro he
        rw [← he, ha] at hzh
        exact Bool.noConfusion hzh
      rw [List.nil_append, hze] at h
      simp [takeLit, hne] at h
    | y :: ys, hw2y =>
      have hy : isPySpace y = true := by
        simp only [List.all_cons, Bool.and_eq_true] at hw2y
        exact hw2y.1
      have hne : a ≠ y := by
        intro he
        have hws := word_not_ws ha
        rw [he] at hws
        rw [hws] at hy
        exact Bool.noConfusion hy
      simp [takeLit, hne] at h
  | a :: as, b :: bs, w2, z, r, hk, hu, hw2, hz, h => by
    simp only [List.cons_append, takeLit] at h
    split at h
    · rename_i hab
      simp only [List.all_cons, Bool.and_eq_true] at hk hu
      obtain ⟨urest, h1, h2⟩ := takeLit_word_key as bs w2 z r hk.2 hu.2 hw2 hz h
      exact ⟨urest, by simp [hab, h1], h2⟩
    · exact absurd h (by simp)

theorem matchPh_sameopen_none (o k' c' w1 u w2 c : List Char)
    (hk'w : k'.all isWordChar = true)
    (hu : u.all isWordChar = true) (hune : u ≠ [])
    (hw1 : w1.all isPySpace = true) (hw2 : w2.all isPySpace = true)
    (hc : headNonWordB c = true) (hc' : headNonWordB c' = true)
    (hne : u ≠ k') :
    matchPh o k' c' (o ++ (w1 ++ (u ++ (w2 ++ c)))) = none := by
  unfold matchPh
  rw [takeLit_refl_append]
  dsimp only
  obtain ⟨uh, ut, hue, huh⟩ : ∃ uh ut, u = uh :: ut ∧ isWordChar uh = true := by
    match u, hune, hu with
    | x :: xs, _, hu =>
      refine ⟨x, xs, rfl, ?_⟩
      simp only [List.all_cons, Bool.and_eq_true] at hu
      exact hu.1
  rw [skipWs_append_ws _ _ hw1, hue, List.cons_append, skipWs_nonWs _ (word_not_ws huh),
    ← List.cons_append, ← hue]
  cases htk : takeLit k' (u ++ (w2 ++ c)) with
  | none => rfl
  | some r =>
    dsimp only
    obtain ⟨urest, h1, h2⟩ := takeLit_word_key k' u w2 c r hk'w hu hw2 hc htk
    subst h2
    match urest, h1 with
    | [], h1 => exact absurd (by rw [h1, List.append_nil]) hne
    | vh :: vt, h1 =>
      have hvh : isWordChar vh = true := by
        have hmem : vh ∈ u := by rw [h1]; simp
        exact List.all_eq_true.mp hu vh hmem
      rw [List.cons_append, skipWs_nonWs _ (word_not_ws hvh)]
      obtain ⟨ch, ct, hce, hch⟩ := headNonWordB_elim hc'
      have hne2 : ch ≠ vh := by
        intro he
        rw [he, hvh] at hch
        exact Bool.noConfusion hch
      rw [hce]
      simp [takeLit, hne2]

theorem delims_facts : (delims.all fun oc =>
    headNonWsB oc.1.data && headNonWordB oc.1.data && headNonWsB oc.2.data &&
      headNonWordB oc.2.data) = true := by decide

theorem keys_facts : (keyNames.all fun k => headWordB k.data && k.data.all isWordChar) = true := by
  decide

theorem opens_mismatch_fact : (delims.all fun x => delims.all fun y =>
    (x.1 == y.1) || mismatchB x.1.data y.1.data) = true := by decide

theorem opens_close_tails_fact : (delims.all fun x => delims.all fun y =>
    y.2.data.tails.all fun σ => closeVsOpenOk x.1.data σ) = true := by decide

theorem opens_open_proper_tails_fact : (delims.all fun x => delims.all fun y =>
    ((y.1.data.tails.filter fun ς => ς != y.1.data && ς != ([] : List Char)).all fun ς =>
      openVsSfxOk x.1.data ς)) = true := by decide

theorem delims_no_lt_fact : (delims.all fun oc =>
    (oc.1.data ++ oc.2.data).all fun x => x != '<') = true := by decide

theorem suffix_append_cases : ∀ (a : List Char) {s b : List Char}, s <:+ a ++ b →
    s <:+ b ∨ ∃ a', a' <:+ a ∧ a' ≠ [] ∧ s = a' ++ b := by
  intro a
  induction a with
  | nil => exact fun h => Or.inl (by simpa using h)
  | cons x xs ih =>
    intro s b h
    rcases List.suffix_cons_iff.mp (by simpa using h) with h1 | h1
    · exact Or.inr ⟨x :: xs, List.suffix_refl _, by simp, by simpa using h1⟩
    · rcases ih h1 with h2 | ⟨a', ha1, ha2, ha3⟩
      · exact Or.inl h2
      · exact Or.inr ⟨a', ha1.trans (List.suffix_cons x xs), ha2, ha3⟩

/-- The master no-match theorem: a placeholder pattern `(o', k', c')` from
the recognized table has no match at any position of a single-occurrence
template built from delimiter pair `(o, c)` and name `u`, unless it is
the designated pattern itself (same opening delimiter and `k' = u`). -/
theorem noMatch_occ (o c o' c' k' : String) (u w1 w2 : List Char)
    (hoc : (o, c) ∈ delims) (hoc' : (o', c') ∈ delims) (hk' : k' ∈ keyNames)
    (hu : u.all isWordChar = true) (hune : u ≠ [])
    (hw1 : w1.all isPySpace = true) (hw2 : w2.all isPySpace = true)
    (hdiff : o' ≠ o ∨ k'.data ≠ u) :
    ∀ s, s <:+ (phOcc o (String.mk u) w1 w2 c).data →
      matchPh o'.data k'.data c'.data s = none := by
  intro s hs
  have hdel := List.all_eq_true.mp delims_facts
  have hfo' := hdel (o', c') hoc'
  simp only [Bool.and_eq_true] at hfo'
  have hfo := hdel (o, c) hoc
  simp only [Bool.and_eq_true] at hfo
  have hfk := List.all_eq_true.mp keys_facts k' hk'
  simp only [Bool.and_eq_true] at hfk
  obtain ⟨oh', ot', hoe', hoh'⟩ := headNonWsB_elim hfo'.1.1.1
  have hoh'w : isWordChar oh' = false := by
    have := hfo'.1.1.2
    rw [hoe'] at this
    simpa [headNonWordB] using this
  have huhead : headWordB u = true := by
    match u, hune, hu with
    | x :: xs, _, hu =>
      simp only [List.all_cons, Bool.and_eq_true] at hu
      simpa [headWordB] using hu.1
  simp only [phOcc] at hs
  rcases suffix_append_cases _ hs with hs1 | ⟨ς, hits, hne, hseq⟩
  · rcases suffix_append_cases _ hs1 with hs2 | ⟨ω, hitw, hnew, hweq⟩
    · rcases suffix_append_cases _ hs2 with hs3 | ⟨υ, hitu, hneu, hueq⟩
      · rcases suffix_append_cases _ hs3 with hs4 | ⟨ψ, hitp, hnep, hpeq⟩
        · -- s <:+ c.data : end-of-template shape
          have hσ : s ∈ c.data.tails := (List.mem_tails _ _).mpr hs4
          have hfact := List.all_eq_true.mp opens_close_tails_fact (o', c') hoc'
          have hfact2 := List.all_eq_true.mp hfact (o, c) hoc
          have hok := List.all_eq_true.mp hfact2 s hσ
          exact closeVsOpenOk_none o'.data k'.data c'.data s hok hfk.1
        · -- s = ψ ++ c.data, ψ a non-empty run of whitespace from w2
          match ψ, hnep with
          | y :: ys, _ =>
            have hy : isPySpace y = true :=
              List.all_eq_true.mp hw2 y (hitp.subset (by simp))
            rw [hpeq, List.cons_append, hoe']
            refine matchPh_none_head _ _ _ _ ?_
            intro he
            rw [he, hy] at hoh'
            exact Bool.noConfusion hoh'
      · -- s = υ ++ (w2 ++ c.data), υ a non-empty word run from u
        match υ, hneu with
        | y :: ys, _ =>
          have hy : isWordChar y = true :=
            List.all_eq_true.mp hu y (hitu.subset (by simp))
          rw [hueq, List.cons_append, hoe']
          refine matchPh_none_head _ _ _ _ ?_
          intro he
          rw [he, hy] at hoh'w
          exact Bool.noConfusion hoh'w
    · -- s = ω ++ (u ++ (w2 ++ c.data)), ω a non-empty whitespace run from w1
      match ω, hnew with
      | y :: ys, _ =>
        have hy : isPySpace y = true :=
          List.all_eq_true.mp hw1 y (hitw.subset (by simp))
        rw [hweq, List.cons_append, hoe']
        refine matchPh_none_head _ _ _ _ ?_
        intro he
        rw [he, hy] at hoh'
        exact Bool.noConfusion hoh'
  · -- s = ς ++ (w1 ++ (u ++ (w2 ++ c.data))), ς a non-empty suffix of the open
    by_cases hfull : ς = o.data
    · subst hfull
      by_cases hoo : o' = o
      · subst hoo
        have hk'ne : k'.data ≠ u := by
          rcases hdiff with h | h
          · exact absurd rfl h
          · exact h
        have hcne : headNonWordB c.data = true := hfo.2
        rw [hseq]
        exact matchPh_sameopen_none o'.data k'.data c'.data w1 u w2 c.data hfk.2 hu hune hw1
          hw2 hcne hfo'.2 (Ne.symm hk'ne)
      · have hfact := List.all_eq_true.mp opens_mismatch_fact (o', c') hoc'
        have hfact2 := List.all_eq_true.mp hfact (o, c) hoc
        have hmis : mismatchB o'.data o.data = true := by
          cases hbeq : (o' == o) with
          | true => exact absurd (eq_of_beq hbeq) hoo
          | false =>
            rw [hbeq] at hfact2
            simpa using hfact2
        rw [hseq]
        exact matchPh_none_of_takeLit _ _ _ _ (takeLit_none_of_mismatch o'.data o.data _ hmis)
    · -- proper suffix of the open
      have hmemf : ς ∈ o.data.tails.filter fun ς' => ς' != o.data && ς' != ([] : List Char) := by
        rw [List.mem_filter]
        refine ⟨(List.mem_tails _ _).mpr hits, ?_⟩
        simp only [Bool.and_eq_true, bne_iff_ne]
        exact ⟨hfull, hne⟩
      have hfact := List.all_eq_true.mp opens_open_proper_tails_fact (o', c') hoc'
      have hfact2 := List.all_eq_true.mp hfact (o, c) hoc
      have hok := List.all_eq_true.mp hfact2 ς hmemf
      rw [hseq]
      exact matchPh_none_of_takeLit _ _ _ _
        (openVsSfxOk_none o'.data ς w1 u (w2 ++ c.data) hok hw1 huhead)

theorem toNat_toLower_upper {x : Char} (h1 : 65 ≤ x.toNat) (h2 : x.toNat ≤ 90) :
    x.toLower.toNat = x.toNat + 32 := by
  simp only [Char.toLower]
  rw [if_pos ⟨h1, h2⟩]
  have hvalid : Nat.isValidChar (x.toNat + 32) := Or.inl (by omega)
  rw [Char.ofNat, dif_pos hvalid]
  simp [Char.ofNatAux, Char.toNat, UInt32.toNat, BitVec.toNat_ofNatLt]

theorem lcEq_lt_elim {x : Char} (h : lcEq '<' x = true) : x = '<' := by
  unfold lcEq at h
  rw [decide_eq_true_eq] at h
  have h0 : Char.toLower '<' = '<' := by decide
  rw [h0] at h
  by_cases hc : 65 ≤ x.toNat ∧ x.toNat ≤ 90
  · exfalso
    have ht := toNat_toLower_upper hc.1 hc.2
    rw [← h] at ht
    have h60 : ('<' : Char).toNat = 60 := by decide
    omega
  · have hx : x.toLower = x := by
      simp only [Char.toLower]
      rw [if_neg hc]
    rw [hx] at h
    exact h.symm

theorem matchImgTag_cons_none {x : Char} (xs : List Char) (hx : x ≠ '<') :
    matchImgTag (x :: xs) = none := by
  have hl : lcEq '<' x = false := by
    cases hl : lcEq '<' x
    · rfl
    · exact absurd (lcEq_lt_elim hl) hx
  unfold matchImgTag takeLitCI
  rw [hl]
  simp

theorem stripAux_id_of_no_lt : ∀ t : List Char, (∀ x ∈ t, x ≠ '<') → stripAux t = t
  | [], _ => stripAux_nil
  | x :: xs, h => by
    rw [stripAux_cons_nomatch x xs (matchImgTag_cons_none xs (h x (by simp))),
      stripAux_id_of_no_lt xs (fun y hy => h y (by simp [hy]))]

theorem stripS_id_of_no_lt (t : String) (h : ∀ x ∈ t.data, x ≠ '<') :
    strip_empty_image_tagsS t = t := by
  unfold strip_empty_image_tagsS strip_empty_image_tags
  by_cases he : t.data = []
  · rw [if_pos he]
  · rw [if_neg he, stripAux_id_of_no_lt t.data h]

theorem no_lt_phOcc (o c : String) (u w1 w2 : List Char) (hoc : (o, c) ∈ delims)
    (hu : u.all isWordChar = true) (hw1 : w1.all isPySpace = true)
    (hw2 : w2.all isPySpace = true) :
    ∀ x ∈ (phOcc o (String.mk u) w1 w2 c).data, x ≠ '<' := by
  intro x hx
  have hdelim := List.all_eq_true.mp delims_no_lt_fact (o, c) hoc
  simp only [phOcc, List.mem_append] at hx
  rcases hx with ho | hw | hu2 | hw2m | hc2
  · have := List.all_eq_true.mp hdelim x (List.mem_append_of_mem_left _ ho)
    simpa using this
  · exact ws_not_lt (List.all_eq_true.mp hw1 x hw)
  · exact word_not_lt (List.all_eq_true.mp hu x hu2)
  · exact ws_not_lt (List.all_eq_true.mp hw2 x hw2m)
  · have := List.all_eq_true.mp hdelim x (List.mem_append_of_mem_right _ hc2)
    simpa using this

theorem foldl_reSubS_id (k v t : String) :
    ∀ l : List (String × String),
      (∀ oc ∈ l, ∀ s, s <:+ t.data → matchPh oc.1.data k.data oc.2.data s = none) →
      List.foldl (fun acc oc => reSubS oc.1 k oc.2 v acc) t l = t
  | [], _ => rfl
  | oc :: rest, h => by
    simp only [List.foldl_cons]
    rw [reSubS_id oc.1 k oc.2 v t (h oc (by simp))]
    exact foldl_reSubS_id k v t rest (fun oc' hoc' => h oc' (by simp [hoc']))

theorem split_fst_ne {α : Type} (l pre post : List (String × α)) (k : String) (v : α)
    (hsplit : l = pre ++ (k, v) :: post)
    (hnodup : (l.map Prod.fst).Nodup) :
    (∀ kv ∈ pre, kv.1 ≠ k) ∧ (∀ kv ∈ post, kv.1 ≠ k) := by
  subst hsplit
  rw [List.map_append, List.map_cons] at hnodup
  have hdisj := List.disjoint_of_nodup_append hnodup
  constructor
  · intro kv hkv he
    exact hdisj (List.mem_map_of_mem Prod.fst hkv) (by rw [he]; exact List.mem_cons_self _ _)
  · have h2 : (k :: post.map Prod.fst).Nodup := (List.nodup_append.mp hnodup).2.1
    rw [List.nodup_cons] at h2
    intro kv hkv he
    exact h2.1 (by rw [← he]; exact List.mem_map_of_mem Prod.fst hkv)

theorem key_data_word {k : String} (hk : k ∈ keyNames) :
    k.data.all isWordChar = true ∧ k.data ≠ [] ∧ headNonWsB k.data = true := by
  have hfk := List.all_eq_true.mp keys_facts k hk
  simp only [Bool.and_eq_true] at hfk
  obtain ⟨x, xs, he, hx⟩ := headWordB_elim hfk.1
  refine ⟨hfk.2, by rw [he]; simp, ?_⟩
  rw [he]
  simp [headNonWsB, word_not_ws hx]

theorem noMatch_occ_otherkey (o c k : String) (w1 w2 : List Char)
    (hoc : (o, c) ∈ delims) (hk : k ∈ keyNames)
    (hw1 : w1.all isPySpace = true) (hw2 : w2.all isPySpace = true)
    (k' : String) (hk'mem : k' ∈ keyNames) (hne : k' ≠ k) :
    ∀ oc' ∈ delims, ∀ s, s <:+ (phOcc o k w1 w2 c).data →
      matchPh oc'.1.data k'.data oc'.2.data s = none := by
  intro oc' hoc' s hs
  obtain ⟨hword, hune, _⟩ := key_data_word hk
  have hdne : k'.data ≠ k.data := fun hd => hne (String.ext hd)
  exact noMatch_occ o c oc'.1 oc'.2 k' k.data w1 w2 hoc hoc' hk'mem hword hune hw1 hw2
    (Or.inr hdne) s hs

theorem subAllPats_occ (o c k v : String) (w1 w2 : List Char)
    (hoc : (o, c) ∈ delims) (hk : k ∈ keyNames)
    (hw1 : w1.all isPySpace = true) (hw2 : w2.all isPySpace = true)
    (hvclean : cleanB v = true) :
    subAllPats k v (phOcc o k w1 w2 c) = v := by
  obtain ⟨dpre, dpost, hsplit⟩ := List.append_of_mem hoc
  have hnodup : (delims.map Prod.fst).Nodup := by decide
  obtain ⟨hpre_ne, hpost_ne⟩ := split_fst_ne delims dpre dpost o c hsplit hnodup
  have hdel := List.all_eq_true.mp delims_facts
  have hfo := hdel (o, c) hoc
  simp only [Bool.and_eq_true] at hfo
  obtain ⟨hword, hune, hkhead⟩ := key_data_word hk
  have hone : o.data ≠ [] := by
    obtain ⟨x, xs, he, _⟩ := headNonWsB_elim hfo.1.1.1
    rw [he]
    simp
  unfold subAllPats
  rw [hsplit, List.foldl_append]
  rw [foldl_reSubS_id k v (phOcc o k w1 w2 c) dpre ?hpre]
  case hpre =>
    intro oc' hoc' s hs
    have hoc'mem : oc' ∈ delims := by
      rw [hsplit]
      exact List.mem_append_of_mem_left _ hoc'
    exact noMatch_occ o c oc'.1 oc'.2 k k.data w1 w2 hoc hoc'mem hk hword hune hw1 hw2
      (Or.inl (hpre_ne oc' hoc')) s hs
  simp only [List.foldl_cons]
  rw [reSubS_occ o k c v w1 w2 hw1 hw2 hone hkhead hfo.1.2]
  refine foldl_reSubS_id k v v dpost ?_
  intro oc' hoc' s hs
  have hoc'mem : oc' ∈ delims := by
    rw [hsplit]
    exact List.mem_append_of_mem_right _ (List.mem_cons_of_mem _ hoc')
  exact cleanB_noMatch hvclean oc' hoc'mem k hk s hs

theorem mergeFold_designated (values pre post : List (String × String)) (k v t : String)
    (hsplit : values = pre ++ (k, v) :: post)
    (hpre : ∀ kv ∈ pre, ∀ oc ∈ delims, ∀ s, s <:+ t.data →
      matchPh oc.1.data kv.1.data oc.2.data s = none)
    (hmid : subAllPats k v t = v)
    (hpost : ∀ kv ∈ post, ∀ oc ∈ delims, ∀ s, s <:+ v.data →
      matchPh oc.1.data kv.1.data oc.2.data s = none) :
    mergeFold values t = v := by
  subst hsplit
  unfold mergeFold
  rw [List.foldl_append]
  have h1 := mergeFold_id pre t hpre
  unfold mergeFold at h1
  rw [h1]
  simp only [List.foldl_cons]
  rw [hmid]
  have h2 := mergeFold_id post v hpost
  unfold mergeFold at h2
  rw [h2]

theorem mergeFold_occ_core (values pre post : List (String × String)) (o c k v : String)
    (w1 w2 : List Char)
    (hsplit : values = pre ++ (k, v) :: post)
    (hkeys : values.map Prod.fst = keyNames)
    (hoc : (o, c) ∈ delims)
    (hw1 : w1.all isPySpace = true) (hw2 : w2.all isPySpace = true)
    (hvclean : cleanB v = true) :
    mergeFold values (phOcc o k w1 w2 c) = v := by
  have hk : k ∈ keyNames := by
    rw [← hkeys, hsplit]
    simp
  have hnodup : (values.map Prod.fst).Nodup := by
    rw [hkeys]
    decide
  obtain ⟨hpre_ne, hpost_ne⟩ := split_fst_ne values pre post k v hsplit hnodup
  have hmemkeys : ∀ kv ∈ values, kv.1 ∈ keyNames := by
    intro kv hkv
    rw [← hkeys]
    exact List.mem_map_of_mem _ hkv
  apply mergeFold_designated values pre post k v _ hsplit
  · intro kv hkv oc' hoc' s hs
    have hmem : kv ∈ values := by
      rw [hsplit]
      exact List.mem_append_of_mem_left _ hkv
    exact noMatch_occ_otherkey o c k w1 w2 hoc hk hw1 hw2 kv.1 (hmemkeys kv hmem)
      (hpre_ne kv hkv) oc' hoc' s hs
  · exact subAllPats_occ o c k v w1 w2 hoc hk hw1 hw2 hvclean
  · intro kv hkv oc' hoc' s hs
    have hmem : kv ∈ values := by
      rw [hsplit]
      exact List.mem_append_of_mem_right _ (List.mem_cons_of_mem _ hkv)
    exact cleanB_noMatch hvclean oc' hoc' kv.1 (hmemkeys kv hmem) s hs

/-- The empty-src image pattern matches at no position of the text. -/
def noImgTailsB : List Char → Bool
  | [] => (matchImgTag []).isNone
  | x :: xs => (matchImgTag (x :: xs)).isNone && noImgTailsB xs

theorem noImgTailsB_id : ∀ t : List Char, noImgTailsB t = true → stripAux t = t
  | [], _ => stripAux_nil
  | x :: xs, h => by
    simp only [noImgTailsB, Bool.and_eq_true, Option.isNone_iff_eq_none] at h
    rw [stripAux_cons_nomatch x xs h.1, noImgTailsB_id xs h.2]

theorem stripS_id_of_noImg (t : String) (h : noImgTailsB t.data = true) :
    strip_empty_image_tagsS t = t := by
  unfold strip_empty_image_tagsS strip_empty_image_tags
  by_cases he : t.data = []
  · rw [if_pos he]
  · rw [if_neg he, noImgTailsB_id t.data h]

/-- A template with one placeholder occurrence inside arbitrary context:
prefix `p`, the occurrence, then suffix `s`. -/
def phOccIn (p o k : String) (w1 w2 : List Char) (c s : String) : String :=
  String.mk (p.data ++ (o.data ++ (w1 ++ (k.data ++ (w2 ++ (c.data ++ s.data))))))

/-- The pattern matches at no position that starts strictly inside the
first list when the first list is followed by `rest`. -/
def noMatchStartsInB (o k c : List Char) : List Char → List Char → Bool
  | [], _ => true
  | x :: xs, rest =>
    (matchPh o k c (x :: (xs ++ rest))).isNone && noMatchStartsInB o k c xs rest

theorem reSub_context (o : Char) (os k c v : List Char) :
    ∀ (p rest s : List Char),
      matchPh (o :: os) k c rest = some s →
      noMatchStartsInB (o :: os) k c p rest = true →
      (∀ s', s' <:+ s → matchPh (o :: os) k c s' = none) →
      reSub o os k c v (p ++ rest) = p ++ (v ++ s)
  | [], rest, s, hm, _, hs => by
    simp only [List.nil_append]
    match rest, hm with
    | [], hm => exact absurd hm (by simp [matchPh_nil_none])
    | x :: xs, hm =>
      rw [reSub_cons_match o os k c v x xs s hm, reSub_id_of_noMatch o os k c v s hs]
  | x :: xs, rest, s, hm, hp, hs => by
    simp only [noMatchStartsInB, Bool.and_eq_true, Option.isNone_iff_eq_none] at hp
    rw [List.cons_append, reSub_cons_nomatch o os k c v x (xs ++ rest) hp.1,
      reSub_context o os k c v xs rest s hm hp.2 hs]
    simp only [List.cons_append]

theorem reSubS_ctx (p o k c v s : String) (w1 w2 : List Char)
    (hw1 : w1.all isPySpace = true) (hw2 : w2.all isPySpace = true)
    (hone : o.data ≠ []) (hkh : headNonWsB k.data = true) (hch : headNonWsB c.data = true)
    (hp : noMatchStartsInB o.data k.data c.data p.data
      (o.data ++ (w1 ++ (k.data ++ (w2 ++ (c.data ++ s.data))))) = true)
    (hs : noMatchTailsB o.data k.data c.data s.data = true) :
    reSubS o k c v (phOccIn p o k w1 w2 c s) = String.mk (p.data ++ (v.data ++ s.data)) := by
  unfold reSubS phOccIn
  cases hod : o.data with
  | nil => exact absurd hod hone
  | cons oh ot =>
    dsimp only
    rw [hod] at hp hs
    have hm := matchPh_occ (oh :: ot) k.data c.data w1 w2 s.data hw1 hw2 hkh hch
    rw [reSub_context oh ot k.data c.data v.data p.data
      ((oh :: ot) ++ (w1 ++ (k.data ++ (w2 ++ (c.data ++ s.data))))) s.data hm hp
      (fun s' hs' => noMatchTailsB_suffix _ _ _ _ _ hs hs')]

theorem mergeFold_designated2 (values pre post : List (String × String)) (k v t R : String)
    (hsplit : values = pre ++ (k, v) :: post)
    (hpre : ∀ kv ∈ pre, ∀ oc ∈ delims, ∀ s, s <:+ t.data →
      matchPh oc.1.data kv.1.data oc.2.data s = none)
    (hmid : subAllPats k v t = R)
    (hpost : ∀ kv ∈ post, ∀ oc ∈ delims, ∀ s, s <:+ R.data →
      matchPh oc.1.data kv.1.data oc.2.data s = none) :
    mergeFold values t = R := by
  subst hsplit
  unfold mergeFold
  rw [List.foldl_append]
  have h1 := mergeFold_id pre t hpre
  unfold mergeFold at h1
  rw [h1]
  simp only [List.foldl_cons]
  rw [hmid]
  have h2 := mergeFold_id post R hpost
  unfold mergeFold at h2
  rw [h2]

theorem subAllPats_ctx (p o c k v s : String) (w1 w2 : List Char)
    (hoc : (o, c) ∈ delims) (hk : k ∈ keyNames)
    (hw1 : w1.all isPySpace = true) (hw2 : w2.all isPySpace = true)
    (hothers : ∀ oc' ∈ delims, oc' ≠ (o, c) →
      (∀ s', s' <:+ (phOccIn p o k w1 w2 c s).data →
        matchPh oc'.1.data k.data oc'.2.data s' = none) ∧
      (∀ s', s' <:+ (p.data ++ (v.data ++ s.data)) →
        matchPh oc'.1.data k.data oc'.2.data s' = none))
    (hp : noMatchStartsInB o.data k.data c.data p.data
      (o.data ++ (w1 ++ (k.data ++ (w2 ++ (c.data ++ s.data))))) = true)
    (hs : noMatchTailsB o.data k.data c.data s.data = true) :
    subAllPats k v (phOccIn p o k w1 w2 c s) = String.mk (p.data ++ (v.data ++ s.data)) := by
  obtain ⟨dpre, dpost, hsplit⟩ := List.append_of_mem hoc
  have hnodup : (delims.map Prod.fst).Nodup := by decide
  obtain ⟨hpre_ne, hpost_ne⟩ := split_fst_ne delims dpre dpost o c hsplit hnodup
  have hdel := List.all_eq_true.mp delims_facts
  have hfo := hdel (o, c) hoc
  simp only [Bool.and_eq_true] at hfo
  obtain ⟨hword, hune, hkhead⟩ := key_data_word hk
  have hone : o.data ≠ [] := by
    obtain ⟨x, xs, he, _⟩ := headNonWsB_elim hfo.1.1.1
    rw [he]
    simp
  have hpairne : ∀ oc' ∈ dpre, oc' ≠ (o, c) := by
    intro oc' hoc' he
    exact hpre_ne oc' hoc' (by rw [he])
  have hpairne2 : ∀ oc' ∈ dpost, oc' ≠ (o, c) := by
    intro oc' hoc' he
    exact hpost_ne oc' hoc' (by rw [he])
  unfold subAllPats
  rw [hsplit, List.foldl_append]
  rw [foldl_reSubS_id k v (phOccIn p o k w1 w2 c s) dpre ?hpre]
  case hpre =>
    intro oc' hoc' s' hs'
    have hoc'mem : oc' ∈ delims := by
      rw [hsplit]
      exact List.mem_append_of_mem_left _ hoc'
    exact (hothers oc' hoc'mem (hpairne oc' hoc')).1 s' hs'
  simp only [List.foldl_cons]
  rw [reSubS_ctx p o k c v s w1 w2 hw1 hw2 hone hkhead hfo.1.2 hp hs]
  refine foldl_reSubS_id k v (String.mk (p.data ++ (v.data ++ s.data))) dpost ?_
  intro oc' hoc' s' hs'
  have hoc'mem : oc' ∈ delims := by
    rw [hsplit]
    exact List.mem_append_of_mem_right _ (List.mem_cons_of_mem _ hoc')
  exact (hothers oc' hoc'mem (hpairne2 oc' hoc')).2 s' hs'

theorem mergeFold_ctx_core (values pre post : List (String × String)) (p o c k v s : String)
    (w1 w2 : List Char)
    (hsplit : values = pre ++ (k, v) :: post)
    (hkeys : values.map Prod.fst = keyNames)
    (hoc : (o, c) ∈ delims)
    (hw1 : w1.all isPySpace = true) (hw2 : w2.all isPySpace = true)
    (hothers : ∀ oc' ∈ delims, ∀ k' ∈ keyNames, ¬(oc' = (o, c) ∧ k' = k) →
      (∀ s', s' <:+ (phOccIn p o k w1 w2 c s).data →
        matchPh oc'.1.data k'.data oc'.2.data s' = none) ∧
      (∀ s', s' <:+ (p.data ++ (v.data ++ s.data)) →
        matchPh oc'.1.data k'.data oc'.2.data s' = none))
    (hp : noMatchStartsInB o.data k.data c.data p.data
      (o.data ++ (w1 ++ (k.data ++ (w2 ++ (c.data ++ s.data))))) = true)
    (hs : noMatchTailsB o.data k.data c.data s.data = true) :
    mergeFold values (phOccIn p o k w1 w2 c s) = String.mk (p.data ++ (v.data ++ s.data)) := by
  have hk : k ∈ keyNames := by
    rw [← hkeys, hsplit]
    simp
  have hnodup : (values.map Prod.fst).Nodup := by
    rw [hkeys]
    decide
  obtain ⟨hpre_ne, hpost_ne⟩ := split_fst_ne values pre post k v hsplit hnodup
  have hmemkeys : ∀ kv ∈ values, kv.1 ∈ keyNames := by
    intro kv hkv
    rw [← hkeys]
    exact List.mem_map_of_mem _ hkv
  apply mergeFold_designated2 values pre post k v _ _ hsplit
  · intro kv hkv oc' hoc' s' hs'
    have hmem : kv ∈ values := by
      rw [hsplit]
      exact List.mem_append_of_mem_left _ hkv
    exact (hothers oc' hoc' kv.1 (hmemkeys kv hmem)
      (fun hand => hpre_ne kv hkv hand.2)).1 s' hs'
  · exact subAllPats_ctx p o c k v s w1 w2 hoc hk hw1 hw2
      (fun oc' hoc' hne => hothers oc' hoc' k hk (fun hand => hne hand.1)) hp hs
  · intro kv hkv oc' hoc' s' hs'
    have hmem : kv ∈ values := by
      rw [hsplit]
      exact List.mem_append_of_mem_right _ (List.mem_cons_of_mem _ hkv)
    exact (hothers oc' hoc' kv.1 (hmemkeys kv hmem)
      (fun hand => hpost_ne kv hkv hand.2)).2 s' hs'

/-- Artwork with only a year set, for the overlapping-occurrence
counterexample. -/
def artC1 : Artwork :=
  ⟨1, Option.none, some "2021", Option.none, Option.none, Option.none, Option.none⟩

/-- C1 counterexample: in the template `%%year %%year%%` the whitespace
form `%%year %%` is the leftmost match of the `%%`-pattern for `year`
and consumes the opener of the plain occurrence `%%year%%` that starts
at position 7 (conjunct 1 shows the pattern matches there). The merge
outputs the resolved year value followed by the unreplaced remnant
`year%%` of that second occurrence, which never receives the value
`2021`, so the claim that one merge call replaces every occurrence of a
recognized key in any of the six syntaxes is false for the program. -/
theorem C1_counterexample :
    matchPh "%%".data "year".data "%%".data (List.drop 7 "%%year %%year%%".data) = some []
    ∧ merge_unlayer_html "%%year %%year%%" artC1 "J" "up" fsEmpty "2026-10-12"
      = .ok "2021year%%"
    ∧ safe_textS (optVal artC1.year) = "2021"
    ∧ ("2021year%%" : String) = "2021" ++ "year%%"
    ∧ containsSub "2021".data "year%%".data = false :=
  ⟨by decide, by decide, by decide, by decide, by decide⟩

/-- C1 (amended): the engine substitutes by leftmost non-overlapping
matches per pattern, so an occurrence that overlaps an earlier match of
the same key's pattern (as in the counterexample) is consumed by it and
not replaced; what holds is: (i) a template that is exactly one
occurrence of a recognized key, in any of the six syntaxes with
arbitrary internal whitespace around the key name, merges in one call to
that key's resolved value; (ii) in a template `p ++ occurrence ++ s`
where the designated occurrence is the only match of its own pattern and
no other recognized pattern matches anywhere in the template or in the
substituted result, one merge call replaces the occurrence with the
resolved value and leaves `p` and `s` verbatim; (iii) an occurrence of
an unrecognized word-shaped key name in any of the six syntaxes passes
through verbatim. The designated value is assumed free of placeholder
matches, empty-src image matches and backslashes, which holds for every
value the resolver produces (the embedding of `re.sub` inserts
replacements literally, which matches Python exactly for backslash-free
replacement strings). -/
theorem C1_leftmost_replacement (a : Artwork) (artist img today : String) :
    (∀ kv ∈ resolveValues a artist img today, ∀ oc ∈ delims, ∀ w1 w2 : List Char,
      w1.all isPySpace = true → w2.all isPySpace = true →
      cleanB kv.2 = true → noImgTailsB kv.2.data = true →
      kv.2.data.all (fun x => x != '\\') = true →
      mergeResolved (phOcc oc.1 kv.1 w1 w2 oc.2) (resolveValues a artist img today) img
        = kv.2)
    ∧ (∀ kv ∈ resolveValues a artist img today, ∀ oc ∈ delims, ∀ w1 w2 : List Char,
      ∀ p s : String,
      w1.all isPySpace = true → w2.all isPySpace = true →
      (∀ oc' ∈ delims, ∀ k' ∈ keyNames, ¬(oc' = oc ∧ k' = kv.1) →
        noMatchTailsB oc'.1.data k'.data oc'.2.data
          (phOccIn p oc.1 kv.1 w1 w2 oc.2 s).data = true ∧
        noMatchTailsB oc'.1.data k'.data oc'.2.data
          (p.data ++ (kv.2.data ++ s.data)) = true) →
      noMatchStartsInB oc.1.data kv.1.data oc.2.data p.data
        (oc.1.data ++ (w1 ++ (kv.1.data ++ (w2 ++ (oc.2.data ++ s.data))))) = true →
      noMatchTailsB oc.1.data kv.1.data oc.2.data s.data = true →
      noImgTailsB (p.data ++ (kv.2.data ++ s.data)) = true →
      kv.2.data.all (fun x => x != '\\') = true →
      mergeResolved (phOccIn p oc.1 kv.1 w1 w2 oc.2 s) (resolveValues a artist img today)
        img = String.mk (p.data ++ (kv.2.data ++ s.data)))
    ∧ (∀ u : String, ∀ oc ∈ delims, ∀ w1 w2 : List Char,
      u.data.all isWordChar = true → u.data ≠ [] → u ∉ keyNames →
      w1.all isPySpace = true → w2.all isPySpace = true →
      mergeResolved (phOcc oc.1 u w1 w2 oc.2) (resolveValues a artist img today) img
        = phOcc oc.1 u w1 w2 oc.2) := by
  refine ⟨?_, ?_, ?_⟩
  · intro kv hkv oc hoc w1 w2 hw1 hw2 hclean hnoimg hnb2
    obtain ⟨pre, post, hsplit⟩ := List.append_of_mem hkv
    have hfold : mergeFold (resolveValues a artist img today) (phOcc oc.1 kv.1 w1 w2 oc.2)
        = kv.2 :=
      mergeFold_occ_core _ pre post oc.1 oc.2 kv.1 kv.2 w1 w2 hsplit rfl hoc hw1 hw2 hclean
    unfold mergeResolved
    by_cases himg : img = ""
    · rw [if_pos himg, hfold, stripS_id_of_noImg kv.2 hnoimg]
    · rw [if_neg himg, hfold]
  · intro kv hkv oc hoc w1 w2 p s hw1 hw2 hothersB hpB hsB hnoimgR hnb2
    obtain ⟨pre, post, hsplit⟩ := List.append_of_mem hkv
    have hfold := mergeFold_ctx_core (resolveValues a artist img today) pre post p oc.1 oc.2
      kv.1 kv.2 s w1 w2 hsplit rfl hoc hw1 hw2 ?hoth hpB hsB
    case hoth =>
      intro oc' hoc' k' hk' hne
      obtain ⟨h1, h2⟩ := hothersB oc' hoc' k' hk' hne
      exact ⟨fun s' hs' => noMatchTailsB_suffix _ _ _ _ _ h1 hs',
        fun s' hs' => noMatchTailsB_suffix _ _ _ _ _ h2 hs'⟩
    unfold mergeResolved
    by_cases himg : img = ""
    · rw [if_pos himg, hfold,
        stripS_id_of_noImg (String.mk (p.data ++ (kv.2.data ++ s.data))) hnoimgR]
    · rw [if_neg himg, hfold]
  · intro u oc hoc w1 w2 hu hune hnotin hw1 hw2
    have hfold : mergeFold (resolveValues a artist img today) (phOcc oc.1 u w1 w2 oc.2)
        = phOcc oc.1 u w1 w2 oc.2 := by
      apply mergeFold_id
      intro kv hkv oc' hoc' s hs
      have hk : kv.1 ∈ keyNames := by
        rw [← resolveValues_keys a artist img today]
        exact List.mem_map_of_mem _ hkv
      have hdne : kv.1.data ≠ u.data := by
        intro hd
        refine hnotin ?_
        rw [← String.ext hd]
        exact hk
      exact noMatch_occ oc.1 oc.2 oc'.1 oc'.2 kv.1 u.data w1 w2 hoc hoc' hk hu hune hw1 hw2
        (Or.inr hdne) s hs
    unfold mergeResolved
    by_cases himg : img = ""
    · rw [if_pos himg, hfold,
        stripS_id_of_no_lt _ (no_lt_phOcc oc.1 oc.2 u.data w1 w2 hoc hu hw1 hw2)]
    · rw [if_neg himg, hfold]

/-- Witness for the amended C1: the recognized key `year` as `[[ year ]]`
inside the context `<p>` ... `</p>` merges to the em dash with the
context kept verbatim, and the unrecognized name `nope` in brace form
passes through verbatim. -/
theorem C1_ctx_witness :
    mergeResolved (phOccIn "<p>" "[[" "year" [' '] [' '] "]]" "</p>")
      (resolveValues artNoImage "J. Doe" "x" "2026-10-12") "x"
      = String.mk ("<p>".data ++ ("—".data ++ "</p>".data))
    ∧ mergeResolved (phOcc "\x7b\x7b" "nope" [] [] "\x7d\x7d")
      (resolveValues artNoImage "J. Doe" "x" "2026-10-12") "x"
      = phOcc "\x7b\x7b" "nope" [] [] "\x7d\x7d" := by
  have h := C1_leftmost_replacement artNoImage "J. Doe" "x" "2026-10-12"
  constructor
  · exact h.2.1 ("year", "—") (by decide) ("[[", "]]") (by decide) [' '] [' '] "<p>" "</p>"
      (by decide) (by decide) (by decide) (by decide) (by decide) (by decide) (by decide)
  · exact h.2.2 "nope" ("\x7b\x7b", "\x7d\x7d") (by decide) [] [] (by decide) (by decide)
      (by decide) (by decide) (by decide)

end ArtistDb
